import Mathlib

/-!
# TransactionFlowAnalyser — verification of the core analysis engines

A shallow embedding of the four analysis engines of the
TransactionFlowAnalyser repository:

* the schedule parser (`src/lib/transaction-parser.ts`),
* the conflict detector and precedence-graph builder
  (`src/lib/conflict-analyzer.ts`),
* the 2PL compliance and cascadelessness analyzer
  (`src/lib/two-phase-locking-analyzer.ts`),
* the stepped lock-manager simulation (`src/lib/lock-manager.ts`),

together with theorems settling the specification claims about them.
JavaScript strings become `String`, `undefined`-able fields become
`Option`, array mutation becomes explicit state passing, and the
`LockManager` class becomes a state structure with a `nextStep`
transition function.
-/

namespace TFA

/-- Operation type: `'R' | 'W' | 'C' | 'A'` from the source's
`OperationType`. -/
inductive OperationType where
  | R | W | C | A
deriving DecidableEq, Repr

/-- An `Operation` parsed out of the schedule text
(`types/transaction-analyzer.ts`).  `variable?: string` is a field
that may be `undefined` in the source, hence `Option String` here
(named `var` because `variable` is a Lean keyword).  `step` is
documented in the source as the "original index in schedule". -/
structure Operation where
  id : String
  type : OperationType
  transactionId : String
  var : Option String
  originalString : String
  step : Nat
deriving DecidableEq, Repr

/- ## Schedule parser (`transaction-parser.ts`) -/

/-- Separator characters: the source normalizes with
`replace(/[,;\s]+/g, ';')`.  JavaScript `\s` is modelled by the ASCII
whitespace characters (the schedules this tool handles are ASCII). -/
def isSeparator (c : Char) : Bool :=
  c = ',' || c = ';' || c = ' ' || c = '\t' || c = '\n' || c = '\r' || c = '\x0b' || c = '\x0c'

/-- Accumulator-based splitter: `acc` holds the characters of the
token currently being read, in reverse. -/
def splitTokensGo : List Char → List Char → List (List Char)
  | [], acc => if acc.isEmpty then [] else [acc.reverse]
  | c :: rest, acc =>
    if isSeparator c then
      if acc.isEmpty then splitTokensGo rest []
      else acc.reverse :: splitTokensGo rest []
    else splitTokensGo rest (c :: acc)

/-- Split a character list into maximal runs of non-separator
characters, dropping empty pieces: the net effect of the source's
trim / replace-separator-runs-by-`;` / split-on-`;` / filter-nonempty
pipeline. -/
def splitTokens (l : List Char) : List (List Char) :=
  splitTokensGo l []

/-- The normalized token list of a schedule string. -/
def tokenize (s : String) : List String :=
  (splitTokens s.data).map (fun cs => ⟨cs⟩)

/-- Upper-case a string character by character (`toUpperCase()` on the
ASCII schedules this tool handles). -/
def strUpper (s : String) : String := ⟨s.data.map Char.toUpper⟩

/-- The leading letter of a token, if it is one of `R`, `W`, `C`, `A`. -/
def charOpType (c : Char) : Option OperationType :=
  if c = 'R' then some .R
  else if c = 'W' then some .W
  else if c = 'C' then some .C
  else if c = 'A' then some .A
  else none

/-- Match one (already upper-cased) token against the source's grammar
regex `^([RWCA])(\d+)(?:\(([^)]+)\))?$`: an operation letter, one or
more digits, and an optional parenthesized non-empty variable name.
Returns the operation type, the transaction number and the optional
variable. -/
def matchToken : List Char → Option (OperationType × String × Option String)
  | [] => none
  | c :: rest =>
    match charOpType c with
    | none => none
    | some ty =>
      let digits := rest.takeWhile Char.isDigit
      let rest2 := rest.dropWhile Char.isDigit
      if digits.isEmpty then none
      else
        match rest2 with
        | [] => some (ty, ⟨digits⟩, none)
        | '(' :: r =>
          let content := r.takeWhile (fun d => d ≠ ')')
          let r2 := r.dropWhile (fun d => d ≠ ')')
          if content.isEmpty then none
          else match r2 with
            | [')'] => some (ty, ⟨digits⟩, some ⟨content⟩)
            | _ => none
        | _ => none

/-- Build the `Operation` for a valid token (`operations.push({...})`
in the source): `id` is `` `${opStr}-${index}` ``, `transactionId` is
`` `T${num}` ``, `step` is the token's index. -/
def mkOperation (index : Nat) (up : String) (ty : OperationType)
    (num : String) (v : Option String) : Operation :=
  { id := up ++ "-" ++ toString index
    type := ty
    transactionId := "T" ++ num
    var := v
    originalString := up
    step := index }

/-- The `opStrings.forEach((opStr, index) => ...)` loop: upper-case
each token, match it against the grammar, keep matches (an invalid
token is dropped with only a console warning) and stamp each produced
operation with the token's index as its `step`. -/
def parseScheduleGo : List String → Nat → List Operation
  | [], _ => []
  | tok :: rest, index =>
    let up := strUpper tok
    match matchToken up.data with
    | some (ty, num, v) => mkOperation index up ty num v :: parseScheduleGo rest (index + 1)
    | none => parseScheduleGo rest (index + 1)

/-- `parseSchedule` from `transaction-parser.ts`.  (The source's early
return on whitespace-only input is subsumed: such input tokenizes to
`[]`.) -/
def parseSchedule (s : String) : List Operation :=
  parseScheduleGo (tokenize s) 0

/-- `getUniqueTransactionIds`: `Array.from(new Set(...)).sort()` —
deduplicate keeping first occurrences, then sort lexicographically. -/
def uniqueKeepFirst (l : List String) : List String :=
  l.foldl (fun acc x => if acc.contains x then acc else acc ++ [x]) []

/-- Lexicographic order on character lists, comparing code points —
what JavaScript's default `Array.sort()` comparison does to (ASCII)
strings. -/
def charListLt : List Char → List Char → Bool
  | [], [] => false
  | [], _ :: _ => true
  | _ :: _, [] => false
  | c :: cs, d :: ds => if c < d then true else if d < c then false else charListLt cs ds

/-- Lexicographic order on strings. -/
def strLt (a b : String) : Bool := charListLt a.data b.data

/-- Insert into a ≤-sorted list of strings (insertion step of the
lexicographic sort `Array.sort()` performs on distinct strings). -/
def insertStr (x : String) : List String → List String
  | [] => [x]
  | y :: rest => if strLt y x then y :: insertStr x rest else x :: y :: rest

/-- Lexicographic sort of a list of strings. -/
def sortStr (l : List String) : List String :=
  l.foldl (fun acc x => insertStr x acc) []

/-- `getUniqueTransactionIds` from `transaction-parser.ts`. -/
def getUniqueTransactionIds (ops : List Operation) : List String :=
  sortStr (uniqueKeepFirst (ops.map (·.transactionId)))

/- ## Conflict detector & precedence graph (`conflict-analyzer.ts`) -/

/-- Conflict type: `'RW' | 'WR' | 'WW'`. -/
inductive ConflictType where
  | RW | WR | WW
deriving DecidableEq, Repr

/-- Printed form of a conflict type, as used in edge labels. -/
def ConflictType.label : ConflictType → String
  | .RW => "RW" | .WR => "WR" | .WW => "WW"

/-- A `Conflict` record (`types/transaction-analyzer.ts`); `variable`
is named `var`. -/
structure Conflict where
  op1 : Operation
  op2 : Operation
  type : ConflictType
  var : String
deriving DecidableEq, Repr

/-- The source's conflict-type table: `R→W = RW`, `W→R = WR`,
`W→W = WW`, anything else (`R→R`, or a `C`/`A` participant) yields
`null`. -/
def conflictTypeOf : OperationType → OperationType → Option ConflictType
  | .R, .W => some .RW
  | .W, .R => some .WR
  | .W, .W => some .WW
  | _, _ => none

/-- The guard of `detectConflicts`: different transactions, `op1` has
a truthy (present and non-empty) variable equal to `op2`'s, at least
one is a Write, and `op1.step < op2.step`. -/
def conflictCond (op1 op2 : Operation) : Bool :=
  op1.transactionId ≠ op2.transactionId &&
  (match op1.var with
   | some v => v ≠ "" && op2.var = some v
   | none => false) &&
  (op1.type = .W || op2.type = .W) &&
  op1.step < op2.step

/-- One iteration body of `detectConflicts`' double loop: the guard,
then the conflict-type table (`if (conflictType) push(...)`). -/
def mkConflict? (op1 op2 : Operation) : Option Conflict :=
  if conflictCond op1 op2 then
    match conflictTypeOf op1.type op2.type, op1.var with
    | some t, some v => some ⟨op1, op2, t, v⟩
    | _, _ => none
  else none

/-- `detectConflicts`: all ordered pairs of operations.  The source
skips index pairs with `i === j`, but such pairs are already rejected
by `op1.step < op2.step`, so the plain pairwise scan below produces
the identical list. -/
def detectConflicts (ops : List Operation) : List Conflict :=
  ops.flatMap fun op1 => ops.filterMap fun op2 => mkConflict? op1 op2

/-- A precedence-graph edge.  The source's `isCycleEdge?: boolean` is
optional and absent (falsy) on freshly built edges, modelled here as a
`Bool` that starts `false`. -/
structure GraphEdge where
  source : String
  target : String
  label : String
  isCycleEdge : Bool
deriving DecidableEq, Repr

/-- The edge-deduplication step of `buildPrecedenceGraph`: edges are
merged per `(source, target)` key (the `uniqueEdgesMap`), the first
edge for a key is kept and later labels are appended with `", "`. -/
def addUniqueEdge (acc : List GraphEdge) (e : GraphEdge) : List GraphEdge :=
  if acc.any (fun e' => e'.source == e.source && e'.target == e.target) then
    acc.map (fun e' =>
      if e'.source == e.source && e'.target == e.target
      then { e' with label := e'.label ++ ", " ++ e.label }
      else e')
  else acc ++ [e]

/-- The adjacency lists of `detectCycle`: every node of `nodes` gets
the targets of its outgoing edges in edge order; a string that is not
a node has no entry (`adj.get(node) || []`). -/
def adjOf (nodes : List String) (edges : List GraphEdge) (n : String) : List String :=
  if nodes.contains n then (edges.filter (fun e => e.source == n)).map (·.target) else []

/-- The mutable context of the source's recursive `dfs`: the `visited`
set, the `recursionStack` set, and the `path` array (which is pushed
to but never popped). -/
structure DfsCtx where
  visited : List String
  stack : List String
  path : List String
deriving DecidableEq, Repr

/-- The recursive `dfs` of `conflict-analyzer.ts`, run with an
explicit frame stack `(node, remaining neighbors)` so that recursion
is structural on a fuel counter (the source's recursion terminates
because `visited` only grows; any fuel bound above the total work
reproduces it exactly).  A frame's neighbor list exhausting models the
`dfs` call returning `false` (deleting the node from the recursion
stack); meeting a visited neighbor on the recursion stack models the
back-edge `return true` (pushing the closing node onto `path`). -/
def dfsRun (adj : String → List String) :
    Nat → List (String × List String) → DfsCtx → Bool × DfsCtx
  | 0, _, ctx => (false, ctx)
  | _ + 1, [], ctx => (false, ctx)
  | fuel + 1, (node, []) :: frames, ctx =>
    dfsRun adj fuel frames { ctx with stack := ctx.stack.erase node }
  | fuel + 1, (node, nb :: nbs) :: frames, ctx =>
    if ctx.visited.contains nb then
      if ctx.stack.contains nb then (true, { ctx with path := ctx.path ++ [nb] })
      else dfsRun adj fuel ((node, nbs) :: frames) ctx
    else
      dfsRun adj fuel ((nb, adj nb) :: (node, nbs) :: frames)
        ⟨nb :: ctx.visited, nb :: ctx.stack, ctx.path ++ [nb]⟩

/-- Entering `dfs(node, ...)` from the top level: mark the root
visited and on the stack, push it on the path, then run its frames. -/
def dfsVisit (adj : String → List String) (fuel : Nat) (node : String)
    (ctx : DfsCtx) : Bool × DfsCtx :=
  dfsRun adj fuel [(node, adj node)]
    ⟨node :: ctx.visited, node :: ctx.stack, ctx.path ++ [node]⟩

/-- The cycle-path reconstruction in `detectCycle`: the last node of
`path` closed the cycle; find its first earlier occurrence and slice
up to (excluding) the final element, falling back to the single
closing node. -/
def reconstructCycle (path : List String) : List String :=
  match path.getLast? with
  | none => []
  | some last =>
    match path.dropLast.findIdx? (· == last) with
    | some i => path.dropLast.drop i
    | none => [last]

/-- The top loop of `detectCycle`: start a DFS at every not-yet
visited node in node order, sharing `visited` and `path` across
roots; on the first `true`, reconstruct the cycle path. -/
def detectCycleGo (adj : String → List String) (fuel : Nat) :
    List String → DfsCtx → Bool × List String
  | [], _ => (false, [])
  | node :: rest, ctx =>
    if ctx.visited.contains node then detectCycleGo adj fuel rest ctx
    else
      match dfsVisit adj fuel node ctx with
      | (true, ctx') => (true, reconstructCycle ctx'.path)
      | (false, ctx') => detectCycleGo adj fuel rest ctx'

/-- `detectCycle` from `conflict-analyzer.ts`: returns `hasCycle` and
the reconstructed `cyclePath`.  The fuel is a crude upper bound on the
total number of DFS events (frame pushes, frame pops and neighbor
inspections), which is what the source's recursion performs. -/
def detectCycle (nodes : List String) (edges : List GraphEdge) : Bool × List String :=
  let adj := adjOf nodes edges
  let fuel := (nodes.length + 2) * (edges.length + nodes.length + 2)
  detectCycleGo adj fuel nodes ⟨[], [], []⟩

/-- The result record of `buildPrecedenceGraph`.  Node objects carry
only their id here: the source also assigns them `x`/`y` coordinates
on a circle, an explicitly display-only concern (floating-point
layout) that no analysis reads back. -/
structure PrecedenceGraph where
  nodes : List String
  edges : List GraphEdge
  isSerializable : Bool
  cycleEdges : List GraphEdge
deriving DecidableEq, Repr

/-- The consecutive `(source, target)` pairs of the cycle path, plus
the wrap-around edge from its last node to its first. -/
def cycleKeys (cyclePath : List String) : List (String × String) :=
  cyclePath.zip cyclePath.tail ++
    (match cyclePath.getLast?, cyclePath.head? with
     | some l, some h => [(l, h)]
     | _, _ => [])

/-- `buildPrecedenceGraph` from `conflict-analyzer.ts`: map conflicts
to labelled edges, merge duplicates per `(source, target)`, detect a
cycle, mark the edges lying on the reconstructed cycle, and report
`isSerializable = ¬hasCycle` together with the marked cycle edges. -/
def buildPrecedenceGraph (transactionIds : List String) (conflicts : List Conflict) :
    PrecedenceGraph :=
  let edges : List GraphEdge := conflicts.map fun c =>
    ⟨c.op1.transactionId, c.op2.transactionId, c.type.label ++ "(" ++ c.var ++ ")", false⟩
  let uniqueEdges := edges.foldl addUniqueEdge []
  let (hasCycle, cyclePath) := detectCycle transactionIds uniqueEdges
  let keys := if hasCycle then cycleKeys cyclePath else []
  let finalEdges := uniqueEdges.map fun e =>
    { e with isCycleEdge := keys.contains (e.source, e.target) }
  { nodes := transactionIds
    edges := finalEdges
    isSerializable := !hasCycle
    cycleEdges := finalEdges.filter (·.isCycleEdge) }

/- ## 2PL compliance analyzer (`two-phase-locking-analyzer.ts`)

The analyzer functions also append to a `lockPhaseEvents` audit list.
That list is write-only with respect to the compliance verdicts: no
returned Boolean ever depends on it (events are only read back to
amend their display text), so the embedding carries just the decision
state (`phase`, `locksHeldByTx`) and returns the Boolean verdicts. -/

/-- Lock-discipline phase of a transaction. -/
inductive Phase where
  | growing | shrinking
deriving DecidableEq, Repr

/-- Lock mode: `'S' | 'X'`. -/
inductive LockType where
  | S | X
deriving DecidableEq, Repr

/-- The stable sort by `step` that `getOperationsByTransactionMap`
applies to each transaction's operation list
(`ops.sort((a, b) => a.step - b.step)`): insertion step, placing the
inserted element before the first one with a `≥` step. -/
def insertByStep (x : Operation) : List Operation → List Operation
  | [] => [x]
  | o :: rest => if x.step ≤ o.step then x :: o :: rest else o :: insertByStep x rest

/-- Stable sort by `step` (`foldr` over `insertByStep`). -/
def sortByStep (l : List Operation) : List Operation :=
  l.foldr insertByStep []

/-- A transaction's own operations, step-sorted: the per-transaction
lists built by `getOperationsByTransactionMap` (and by
`getTransactionOperations`). -/
def opsForTx (allOps : List Operation) (txId : String) : List Operation :=
  sortByStep (allOps.filter (fun op => op.transactionId == txId))

/-- The lock mode an operation needs: `op.type === 'W' ? 'X' : 'S'`. -/
def lockNeeded (t : OperationType) : LockType :=
  if t = .W then .X else .S

/-- The conflict inference on another transaction's operation inside
`analyzeBasic2PL`: look up the last of this transaction's R/W
operations on the same variable (`txOps.findLast(...)`); this
transaction is inferred to hold an X lock if that operation is a
Write, an S lock otherwise (also when no such operation exists); the
phase is forced to shrinking if that held lock or the other
operation's needed lock is exclusive. -/
def impliedShrink (txOps : List Operation) (op : Operation) : Bool :=
  let txHeldLockTypeOp :=
    (txOps.filter (fun t => t.var == op.var && (t.type == .R || t.type == .W))).getLast?
  let txHeldLockType : LockType :=
    match txHeldLockTypeOp with
    | some t => if t.type = .W then .X else .S
    | none => .S
  txHeldLockType = .X || lockNeeded op.type = .X

/-- The main loop of `analyzeBasic2PL` over the full schedule,
threading the `phase` and the `locksHeldByTx` set (a set of the
`variable` fields this transaction locked, which may be `undefined`,
exactly as `locksHeldByTx.add(op.variable!)` stores it). -/
def basic2PLGo (txId : String) (txOps : List Operation) :
    List Operation → Phase → List (Option String) → Bool
  | [], _, _ => true
  | op :: rest, phase, locksHeld =>
    if op.transactionId == txId then
      match op.type with
      | .R | .W =>
        if phase = .shrinking then false
        else basic2PLGo txId txOps rest phase (op.var :: locksHeld)
      | .C | .A => basic2PLGo txId txOps rest .shrinking []
    else
      if phase = .growing &&
         (match op.var with | some v => v ≠ "" | none => false) &&
         locksHeld.contains op.var then
        if impliedShrink txOps op then basic2PLGo txId txOps rest .shrinking locksHeld
        else basic2PLGo txId txOps rest phase locksHeld
      else basic2PLGo txId txOps rest phase locksHeld

/-- `analyzeBasic2PL`: replay the full schedule; a Read/Write by this
transaction is a lock acquisition and fails if the phase is already
shrinking; its Commit/Abort releases everything and forces shrinking;
another transaction's operation on a variable this transaction holds
(while still growing) may force an inferred shrink. -/
def analyzeBasic2PL (txId : String) (allOps txOps : List Operation) : Bool :=
  basic2PLGo txId txOps allOps .growing []

/-- Commit or Abort. -/
def isTermination (op : Operation) : Bool :=
  op.type == .C || op.type == .A

/-- The inner scan of `analyzeStrict2PL`: for array positions `k`
strictly between the Write's `step` and the Commit/Abort `step`, test
whether `allOps[k]` is another transaction's Read/Write whose
`variable` field equals the Write's (an `undefined === undefined`
match included, exactly as in the source). -/
def strictScanHit (txId : String) (allOps : List Operation)
    (writeOp : Operation) (caStep : Nat) : Bool :=
  (List.range' (writeOp.step + 1) (caStep - (writeOp.step + 1))).any fun k =>
    match allOps.get? k with
    | some o =>
      o.transactionId ≠ txId && o.var == writeOp.var && (o.type == .R || o.type == .W)
    | none => false

/-- `analyzeStrict2PL`: requires Basic 2PL; with no Commit/Abort it
fails iff the transaction has Writes; otherwise it fails iff the scan
between some Write and the first Commit/Abort hits another
transaction's access. -/
def analyzeStrict2PL (txId : String) (allOps txOps : List Operation)
    (isBasic2PL : Bool) : Bool :=
  if !isBasic2PL then false
  else
    match txOps.find? isTermination with
    | none => !(txOps.any (fun op => op.type == .W))
    | some ca =>
      !((txOps.filter (fun op => op.type == .W)).any fun w =>
          strictScanHit txId allOps w ca.step)

/- ## Cascadelessness checker (`analyzeCascadeless`) -/

/-- One iteration of the `latestWriterTxId` / `latestWriteStep`
accumulation of the source: a prior (strictly earlier) Write on `v` by
another transaction replaces the best candidate when its step is
strictly larger (a step tie keeps the first-encountered writer). -/
def latestWriterStep (readerTx : String) (v : String) (readStep : Nat)
    (best : Option (String × Nat)) (prevOp : Operation) : Option (String × Nat) :=
  if prevOp.step < readStep && prevOp.type == .W &&
     prevOp.var == some v && prevOp.transactionId ≠ readerTx then
    match best with
    | none => some (prevOp.transactionId, prevOp.step)
    | some (_, s) =>
      if prevOp.step > s then some (prevOp.transactionId, prevOp.step) else best
  else best

/-- The fold locating the most recent (largest `step` strictly below
`readStep`) Write on `v` by a transaction other than the reader. -/
def latestWriter (allOps : List Operation) (readerTx : String)
    (v : String) (readStep : Nat) : Option String :=
  (allOps.foldl (latestWriterStep readerTx v readStep) none).map Prod.fst

/-- The writer-termination check of `analyzeCascadeless`: the reader
is safe if the writer's first Abort precedes the read, and otherwise
exactly if the writer's first Commit exists and does not come after
the read (`!writerCommitOp || writerCommitOp.step > readStep` is the
failure condition). -/
def writerTerminationOk (allOps : List Operation) (writerTx : String)
    (readStep : Nat) : Bool :=
  let writerOps := opsForTx allOps writerTx
  let commitOk : Bool :=
    match writerOps.find? (fun o => o.type == .C) with
    | none => false
    | some c => c.step ≤ readStep
  match writerOps.find? (fun o => o.type == .A) with
  | some a => if a.step < readStep then true else commitOk
  | none => commitOk

/-- One Read's cascadelessness condition: vacuous if no prior writer
exists, otherwise the writer-termination check.  (The source's
`if (!writerOps) continue` guard is unreachable: the writer's id came
from an operation of `allOps`, so its operation list is never
missing.) -/
def cascadelessReadOk (allOps : List Operation) (readOp : Operation) : Bool :=
  match readOp.var with
  | none => true
  | some v =>
    match latestWriter allOps readOp.transactionId v readOp.step with
    | none => true
    | some writerTx => writerTerminationOk allOps writerTx readOp.step

/-- `analyzeCascadeless`: every Read with a truthy (present,
non-empty) `variable` must pass `cascadelessReadOk`; the first
failure returns `false`. -/
def analyzeCascadeless (allOps : List Operation) : Bool :=
  allOps.all fun op =>
    if op.type == .R && (match op.var with | some v => v ≠ "" | none => false)
    then cascadelessReadOk allOps op
    else true

/-- The report fields of `analyzeScheduleFor2PL`:
`isCascadeless = analyzeCascadeless(...)` and
`allowsCascadingAborts = !isCascadeless`. -/
def allowsCascadingAborts (allOps : List Operation) : Bool :=
  !analyzeCascadeless allOps

/- ## Lock manager simulation (`lock-manager.ts`)

The `LockManager` class becomes a state structure; every mutating
method becomes a function from states to states.  Runtime values that
TypeScript types as `string` but that can actually be `undefined`
(the `variable` routed into the waiting queue and into lock records)
are `Option String`; `undefined` prints as `"undefined"` in log
interpolations. -/

/-- A held lock (`types/transaction-analyzer.ts`, `Lock`); `variable`
is named `var`. -/
structure Lock where
  transactionId : String
  var : Option String
  type : LockType
deriving DecidableEq, Repr

/-- Simulation status of a transaction. -/
inductive TxStatus where
  | Active | Blocked | Committed | Aborted
deriving DecidableEq, Repr

/-- A waiting-queue entry; `variable` is named `var`. -/
structure WaitEntry where
  transactionId : String
  operation : Operation
  var : Option String
  lockType : LockType
deriving DecidableEq, Repr

/-- A history snapshot (`LockSimulationStep`). -/
structure SimStep where
  operation : Option Operation
  locks : List Lock
  transactionStatuses : List (String × TxStatus)
  waitingQueue : List WaitEntry
  log : List String
  isDeadlock : Bool
deriving DecidableEq, Repr

/-- The mutable fields of the `LockManager` class.  A JavaScript
`Record<string, TransactionStatus>` is an insertion-ordered
association list. -/
structure LockManager where
  operations : List Operation
  currentStepIndex : Int
  locks : List Lock
  transactionStatuses : List (String × TxStatus)
  waitingQueue : List WaitEntry
  history : List SimStep
  log : List String
deriving DecidableEq, Repr

/-- Record lookup `m[tx]`. -/
def statusOf (m : List (String × TxStatus)) (tx : String) : Option TxStatus :=
  (m.find? (fun p => p.1 == tx)).map Prod.snd

/-- Record assignment `m[tx] = st` (overwrite in place, or append a
new key in insertion order). -/
def setStatus (m : List (String × TxStatus)) (tx : String) (st : TxStatus) :
    List (String × TxStatus) :=
  if m.any (fun p => p.1 == tx) then
    m.map (fun p => if p.1 == tx then (tx, st) else p)
  else m ++ [(tx, st)]

/-- String interpolation of a possibly-`undefined` value. -/
def showVar : Option String → String
  | some v => v
  | none => "undefined"

/-- Printed lock mode. -/
def LockType.label : LockType → String
  | .S => "S" | .X => "X"

/-- Printed transaction status. -/
def TxStatus.label : TxStatus → String
  | .Active => "Active" | .Blocked => "Blocked"
  | .Committed => "Committed" | .Aborted => "Aborted"

/-- `initializeTransactionStatuses`: every transaction id occurring in
the schedule (first-occurrence order) starts `Active`. -/
def initStatuses (ops : List Operation) : List (String × TxStatus) :=
  (uniqueKeepFirst (ops.map (·.transactionId))).map (fun tx => (tx, TxStatus.Active))

/-- The constructor: index `-1` ("before the first operation"), empty
locks/queue, all transactions `Active`, and the seeded initial
snapshot. -/
def mkLockManager (operations : List Operation) : LockManager :=
  let statuses := initStatuses operations
  { operations := operations
    currentStepIndex := -1
    locks := []
    transactionStatuses := statuses
    waitingQueue := []
    history := [⟨none, [], statuses, [], ["Initial state."], false⟩]
    log := [] }

/-- `canAcquireLock`: an S request needs every existing lock on the
variable to be shared; an X request needs every existing lock on the
variable to be this transaction's own exclusive lock, or no other
transaction to hold any lock on it. -/
def canAcquireLock (locks : List Lock) (transactionId : String)
    (v : Option String) (lockType : LockType) : Bool :=
  let existingLocksOnVar := locks.filter (fun l => l.var == v)
  if existingLocksOnVar.isEmpty then true
  else if lockType = .S then
    existingLocksOnVar.all (fun l => l.type == .S)
  else
    existingLocksOnVar.all (fun l => l.transactionId == transactionId && l.type == .X) ||
    !(existingLocksOnVar.any (fun l => l.transactionId != transactionId))

/-- `grantLock`: on an X grant, first drop this transaction's own S
lock on the variable (upgrade); then push the new lock unless an
identical one is already held. -/
def grantLock (locks : List Lock) (transactionId : String)
    (v : Option String) (lockType : LockType) : List Lock :=
  let locks1 :=
    if lockType = .X then
      locks.filter (fun l =>
        !(l.transactionId == transactionId && l.var == v && l.type == .S))
    else locks
  if locks1.any (fun l =>
      l.transactionId == transactionId && l.var == v && l.type == lockType) then
    locks1
  else locks1 ++ [⟨transactionId, v, lockType⟩]

/-- The result of one scan over the waiting queue. -/
structure WQOut where
  locks : List Lock
  statuses : List (String × TxStatus)
  queue : List WaitEntry
  log : List String
  processedAny : Bool
deriving DecidableEq, Repr

/-- The loop of `processWaitingQueue`, scanning the queue once in
order; a grantable entry is granted (updating the lock table that
later entries are tested against), removed, and its transaction
marked `Active`.  Returns the new locks, statuses, remaining queue,
log, and whether anything was granted. -/
def processWaitingQueueGo :
    List WaitEntry → List Lock → List (String × TxStatus) → List String → WQOut
  | [], locks, sts, log => ⟨locks, sts, [], log, false⟩
  | item :: rest, locks, sts, log =>
    if canAcquireLock locks item.transactionId item.var item.lockType then
      let locks' := grantLock locks item.transactionId item.var item.lockType
      let log' := log ++
        [item.transactionId ++ " (from waiting queue) acquired " ++
          item.lockType.label ++ "-lock on " ++ showVar item.var ++ " for " ++
          item.operation.originalString ++ ".",
         item.transactionId ++ " is now Active."]
      let sts' := setStatus sts item.transactionId .Active
      let out := processWaitingQueueGo rest locks' sts' log'
      { out with processedAny := true }
    else
      let out := processWaitingQueueGo rest locks sts log
      { out with queue := item :: out.queue }

/-- `processWaitingQueue` on the whole state. -/
def processWaitingQueue (st : LockManager) : LockManager × Bool :=
  let out := processWaitingQueueGo st.waitingQueue st.locks st.transactionStatuses st.log
  ({ st with locks := out.locks, transactionStatuses := out.statuses,
             waitingQueue := out.queue, log := out.log }, out.processedAny)

/-- `addToWaitingQueue`: push unless an entry for the same operation
id is already queued. -/
def addToWaitingQueue (st : LockManager) (op : Operation)
    (v : Option String) (lockType : LockType) : LockManager :=
  if st.waitingQueue.any (fun item => item.operation.id == op.id) then st
  else { st with waitingQueue :=
          st.waitingQueue ++ [⟨op.transactionId, op, v, lockType⟩] }

/-- `releaseLocks`: drop every lock of the transaction, log the count
if positive, then drain the waiting queue (the drain's success flag is
discarded here). -/
def releaseLocks (st : LockManager) (transactionId : String) : LockManager :=
  let releasedCount :=
    (st.locks.filter (fun l => l.transactionId == transactionId)).length
  let st1 := { st with
    locks := st.locks.filter (fun l => l.transactionId != transactionId)
    log := if releasedCount > 0 then
             st.log ++ [transactionId ++ " released " ++ toString releasedCount ++ " lock(s)."]
           else st.log }
  (processWaitingQueue st1).1

/-- `isTransactionReady`: if this operation is queued for its
transaction, test its lock request; otherwise it is ready. -/
def isTransactionReady (st : LockManager) (op : Operation) : Bool :=
  match st.waitingQueue.find? (fun item =>
      item.transactionId == op.transactionId && item.operation.id == op.id) with
  | some item => canAcquireLock st.locks item.transactionId item.var item.lockType
  | none => true

/-- `requestLock`: grant and log (re-activating a blocked
transaction), or log, mark `Blocked` and enqueue. -/
def requestLock (st : LockManager) (transactionId : String) (v : Option String)
    (lockType : LockType) (op : Operation) : LockManager :=
  if canAcquireLock st.locks transactionId v lockType then
    let st1 := { st with
      locks := grantLock st.locks transactionId v lockType
      log := st.log ++ [transactionId ++ " acquired " ++ lockType.label ++
        "-lock on " ++ showVar v ++ " for " ++ op.originalString ++ "."] }
    if statusOf st1.transactionStatuses transactionId == some .Blocked then
      { st1 with
        transactionStatuses := setStatus st1.transactionStatuses transactionId .Active
        log := st1.log ++ [transactionId ++ " is now Active."] }
    else st1
  else
    let st1 := { st with
      log := st.log ++ [transactionId ++ " cannot acquire " ++ lockType.label ++
        "-lock on " ++ showVar v ++ " for " ++ op.originalString ++
        ". Added to waiting queue."]
      transactionStatuses := setStatus st.transactionStatuses transactionId .Blocked }
    addToWaitingQueue st1 op v lockType

/-- `commitTransaction`: log, release all locks (which drains the
queue), set `Committed`. -/
def commitTransaction (st : LockManager) (transactionId : String) : LockManager :=
  let st1 := { st with log := st.log ++ [transactionId ++ " Commits."] }
  let st2 := releaseLocks st1 transactionId
  { st2 with transactionStatuses := setStatus st2.transactionStatuses transactionId .Committed }

/-- `abortTransaction`: like commit, but set `Aborted` and purge the
transaction's own waiting-queue entries. -/
def abortTransaction (st : LockManager) (transactionId : String) : LockManager :=
  let st1 := { st with log := st.log ++ [transactionId ++ " Aborts."] }
  let st2 := releaseLocks st1 transactionId
  { st2 with
    transactionStatuses := setStatus st2.transactionStatuses transactionId .Aborted
    waitingQueue := st2.waitingQueue.filter (fun item => item.transactionId != transactionId) }

/-- `processOperation`: a blocked transaction re-processing its own
still-unsatisfiable queued operation just logs and (re-)enqueues;
otherwise Read/Write request S/X on a truthy variable (a Read or
Write whose `variable` is absent or empty does nothing), and
Commit/Abort terminate the transaction. -/
def processOperation (st : LockManager) (op : Operation) : LockManager :=
  if statusOf st.transactionStatuses op.transactionId == some .Blocked &&
     !isTransactionReady st op then
    let st1 := { st with log := st.log ++
      [op.transactionId ++ " is blocked, cannot process " ++ op.originalString ++ " yet."] }
    if st1.waitingQueue.any (fun item => item.operation.id == op.id) then st1
    else addToWaitingQueue st1 op op.var (if op.type = .R then .S else .X)
  else
    match op.type with
    | .R =>
      match op.var with
      | some v => if v ≠ "" then requestLock st op.transactionId (some v) .S op else st
      | none => st
    | .W =>
      match op.var with
      | some v => if v ≠ "" then requestLock st op.transactionId (some v) .X op else st
      | none => st
    | .C => commitTransaction st op.transactionId
    | .A => abortTransaction st op.transactionId

/-- `detectDeadlock`: scan ordered pairs of distinct-transaction
waiting entries; flag a deadlock when each of the two holds a lock
incompatible with what the other is waiting for.  (The source also
pushes a "Potential deadlock" log line when it fires; that line is
never asserted by any claim and — in the queue-drain branch — is
dropped from the snapshot it belongs to, so the embedding keeps the
Boolean only.) -/
def detectDeadlock (locks : List Lock) (queue : List WaitEntry) : Bool :=
  if queue.length < 2 then false
  else queue.any fun item1 => queue.any fun item2 =>
    if item1.transactionId == item2.transactionId then false
    else
      (locks.any fun lock => lock.var == item1.var &&
        lock.transactionId == item2.transactionId &&
        (lock.type == .X || item1.lockType == .X)) &&
      (locks.any fun lock => lock.var == item2.var &&
        lock.transactionId == item1.transactionId &&
        (lock.type == .X || item2.lockType == .X))

/-- `operations[i]` under a possibly negative index. -/
def opAt (ops : List Operation) (i : Int) : Option Operation :=
  if i < 0 then none else ops.get? i.toNat

/-- The schedule-advancing part of `nextStep` (the code run when the
initial queue drain granted nothing): advance to the next scheduled
operation if one remains (skipping operations of already terminated
transactions), or log that the queue is stuck, or log that the
simulation is complete. -/
def advanceSchedule (st2 : LockManager) : LockManager :=
  if st2.currentStepIndex < (st2.operations.length : Int) - 1 then
    let st3 := { st2 with currentStepIndex := st2.currentStepIndex + 1 }
    match opAt st3.operations st3.currentStepIndex with
    | some operation =>
      match statusOf st3.transactionStatuses operation.transactionId with
      | some .Aborted =>
        { st3 with log := st3.log ++ ["Skipping " ++ operation.originalString ++
            " for " ++ operation.transactionId ++ " (already Aborted)."] }
      | some .Committed =>
        { st3 with log := st3.log ++ ["Skipping " ++ operation.originalString ++
            " for " ++ operation.transactionId ++ " (already Committed)."] }
      | _ => processOperation st3 operation
    | none => st3
  else if st2.waitingQueue.length > 0 then
    let (st3', b) := processWaitingQueue st2
    if !b then
      { st3' with log := st3'.log ++
          ["No more operations in schedule. Waiting queue has items that cannot be processed."] }
    else st3'
  else
    { st2 with log := st2.log ++
        ["No more operations in schedule and waiting queue is empty. Simulation complete."] }

/-- `nextStep`: clear the per-step log; drain the waiting queue and,
if anything was granted, snapshot that as the step (reusing the last
snapshot's `operation`).  Otherwise run `advanceSchedule`; then detect
deadlock, log it, and snapshot. -/
def nextStep (st0 : LockManager) : LockManager :=
  let st1 := { st0 with log := [] }
  let (st2, processed) := processWaitingQueue st1
  if processed then
    let snap : SimStep :=
      { operation := (st2.history.getLast?).bind (·.operation)
        locks := st2.locks
        transactionStatuses := st2.transactionStatuses
        waitingQueue := st2.waitingQueue
        log := st2.log
        isDeadlock := detectDeadlock st2.locks st2.waitingQueue }
    { st2 with history := st2.history ++ [snap] }
  else
    let st3 := advanceSchedule st2
    let isDeadlock := detectDeadlock st3.locks st3.waitingQueue
    let st4 := if isDeadlock then { st3 with log := st3.log ++ ["DEADLOCK DETECTED!"] } else st3
    let snap : SimStep :=
      { operation := opAt st4.operations st4.currentStepIndex
        locks := st4.locks
        transactionStatuses := st4.transactionStatuses
        waitingQueue := st4.waitingQueue
        log := st4.log
        isDeadlock := isDeadlock }
    { st4 with history := st4.history ++ [snap] }

/- ## Invariants and specification-side predicates -/

/-- Pairwise lock-table compatibility: any two entries of the lock
list either concern different variables or are both shared.  This is
the inductive form of the spec's lock-manager invariant (at most one
Exclusive lock per variable, and never an Exclusive alongside a
Shared lock). -/
def lockTableOk (locks : List Lock) : Prop :=
  List.Pairwise (fun l1 l2 => l1.var ≠ l2.var ∨ (l1.type = .S ∧ l2.type = .S)) locks

/-- The last history snapshot mirrors the manager's current mutable
state (its `locks`, `transactionStatuses` and `waitingQueue`): true of
the freshly constructed manager and preserved by `nextStep`, which
always appends a snapshot built from the final state of the step. -/
def SyncInv (st : LockManager) : Prop :=
  ∃ snap, st.history.getLast? = some snap ∧ snap.locks = st.locks ∧
    snap.transactionStatuses = st.transactionStatuses ∧
    snap.waitingQueue = st.waitingQueue

/-- The lock-manager invariant carried through `nextStep`: the current
lock table is pairwise-compatible and so is the lock table of every
recorded history snapshot. -/
def HistOk (st : LockManager) : Prop :=
  lockTableOk st.locks ∧ ∀ snap ∈ st.history, lockTableOk snap.locks

/-- Claim-side predicate, following the spec's words for Strict 2PL:
some other transaction reads or writes the same variable as one of
this transaction's Writes (the Write carrying a variable), at a step
strictly between that Write's step and the step of the transaction's
(first) Commit/Abort. -/
@[reducible] def strictSpecViolation (txId : String) (allOps : List Operation) : Prop :=
  ∃ ca ∈ opsForTx allOps txId, (opsForTx allOps txId).find? isTermination = some ca ∧
    ∃ w ∈ opsForTx allOps txId, w.type = .W ∧ w.var.isSome ∧
      ∃ o ∈ allOps, o.transactionId ≠ txId ∧ o.var = w.var ∧
        (o.type = .R ∨ o.type = .W) ∧ w.step < o.step ∧ o.step < ca.step

/-- Claim-side predicate, following the spec's words for
cascadelessness: for every Read of a (present, non-empty) variable at
step `s`, and every most-recent prior Write on that variable by
another transaction, the writer either aborted strictly before `s` or
committed strictly before `s`. -/
@[reducible] def cascadelessSpec (allOps : List Operation) : Prop :=
  ∀ readOp ∈ allOps, readOp.type = .R → readOp.var ≠ none → readOp.var ≠ some "" →
    ∀ w ∈ allOps,
      (w.type = .W ∧ w.var = readOp.var ∧ w.transactionId ≠ readOp.transactionId ∧
        w.step < readOp.step ∧
        (∀ w' ∈ allOps, w'.type = .W → w'.var = readOp.var →
          w'.transactionId ≠ readOp.transactionId → w'.step < readOp.step →
          w'.step ≤ w.step)) →
      ((∃ a ∈ allOps, a.transactionId = w.transactionId ∧ a.type = .A ∧
          a.step < readOp.step) ∨
       (∃ c ∈ allOps, c.transactionId = w.transactionId ∧ c.type = .C ∧
          c.step < readOp.step))

/- # Theorems settling the claims -/

/-- C2: for the parsed schedule `R1(X); W2(X); R2(Y); W1(Y)`,
`buildPrecedenceGraph` over its detected conflicts produces exactly
the two edges `T1→T2` (labelled by the RW conflict on `X`) and
`T2→T1` (labelled by the RW conflict on `Y`), returns
`isSerializable = false`, and both edges are marked as cycle edges
and returned in `cycleEdges`. -/
theorem claim2_cycle_scenario :
    buildPrecedenceGraph
      (getUniqueTransactionIds (parseSchedule "R1(X); W2(X); R2(Y); W1(Y)"))
      (detectConflicts (parseSchedule "R1(X); W2(X); R2(Y); W1(Y)")) =
    { nodes := ["T1", "T2"]
      edges := [⟨"T1", "T2", "RW(X)", true⟩, ⟨"T2", "T1", "RW(Y)", true⟩]
      isSerializable := false
      cycleEdges := [⟨"T1", "T2", "RW(X)", true⟩, ⟨"T2", "T1", "RW(Y)", true⟩] } := by
  decide

/-- C6: stepping the lock manager built from the parsed schedule
`W1(A); W2(B); R1(B); R2(A)` four times leaves the waiting queue
holding T1's request on `B` and T2's request on `A`, with T1 holding
the Exclusive lock on `A` and T2 the Exclusive lock on `B` (each
blocking the other), and the snapshot produced at that point has
`isDeadlock = true`. -/
theorem claim6_deadlock_scenario :
    (nextStep^[4] (mkLockManager (parseSchedule "W1(A); W2(B); R1(B); R2(A)"))).waitingQueue.map
        (fun w => (w.transactionId, w.var, w.lockType)) =
      [("T1", some "B", LockType.S), ("T2", some "A", LockType.S)] ∧
    (nextStep^[4] (mkLockManager (parseSchedule "W1(A); W2(B); R1(B); R2(A)"))).locks =
      [⟨"T1", some "A", .X⟩, ⟨"T2", some "B", .X⟩] ∧
    ((nextStep^[4] (mkLockManager (parseSchedule "W1(A); W2(B); R1(B); R2(A)"))).history.getLast?).map
        SimStep.isDeadlock = some true := by
  decide

/-- C1 counterexample: on the parsed schedule `C1(X); W2(X)` the
claim's conditions hold of the ordered pair (different transactions,
same non-empty variable, the second is a Write, steps increasing), yet
`detectConflicts` reports nothing — the conflict-type table also
requires the first operation to be a Read or Write, and a Commit
carrying a parenthesized variable does parse. -/
theorem claim1_conflict_iff_counterexample :
    detectConflicts (parseSchedule "C1(X); W2(X)") = [] ∧
    ∃ op1 ∈ parseSchedule "C1(X); W2(X)", ∃ op2 ∈ parseSchedule "C1(X); W2(X)",
      op1.transactionId ≠ op2.transactionId ∧ op1.var = some "X" ∧ op2.var = some "X" ∧
      (op1.type = .W ∨ op2.type = .W) ∧ op1.step < op2.step := by
  decide

/-- C3 counterexample: on the parsed schedule `W1; R2; C1` (all three
tokens are grammatical; the bare `W1`/`R2` carry no variable),
transaction T1 has `basic2PL = true` and no other transaction accesses
any variable of a T1 Write — T1's Write has no variable at all — yet
`strict2PL` is `false`, because the scan compares the absent variable
fields as equal (`undefined === undefined`). -/
theorem claim3_strict2PL_counterexample :
    analyzeBasic2PL "T1" (parseSchedule "W1; R2; C1")
      (opsForTx (parseSchedule "W1; R2; C1") "T1") = true ∧
    analyzeStrict2PL "T1" (parseSchedule "W1; R2; C1")
      (opsForTx (parseSchedule "W1; R2; C1") "T1")
      (analyzeBasic2PL "T1" (parseSchedule "W1; R2; C1")
        (opsForTx (parseSchedule "W1; R2; C1") "T1")) = false ∧
    ¬ strictSpecViolation "T1" (parseSchedule "W1; R2; C1") := by
  decide

/-- C7 counterexample: parsing `R1(X) BAD W2(X)` drops the invalid
middle token but keeps counting, so the produced steps are `[0, 2]`
— not the gap-free `0, 1` the claim requires (`step` is the position
among *all* normalized tokens, not among the valid ones). -/
theorem claim7_step_numbering_counterexample :
    (parseSchedule "R1(X) BAD W2(X)").map Operation.step = [0, 2] ∧
    (parseSchedule "R1(X) BAD W2(X)").map Operation.step ≠
      List.range (parseSchedule "R1(X) BAD W2(X)").length := by
  decide

/-- C8 counterexample: for the input `R1(X) BAD W2(X)` the stored
original texts read back `["R1(X)", "W2(X)"]`, while the normalized
token sequence of the input is `["R1(X)", "BAD", "W2(X)"]` — an
invalid token is dropped from the operations but present among the
normalized tokens, so the round trip fails. -/
theorem claim8_roundtrip_counterexample :
    (parseSchedule "R1(X) BAD W2(X)").map Operation.originalString = ["R1(X)", "W2(X)"] ∧
    (tokenize "R1(X) BAD W2(X)").map strUpper = ["R1(X)", "BAD", "W2(X)"] ∧
    (parseSchedule "R1(X) BAD W2(X)").map Operation.originalString ≠
      (tokenize "R1(X) BAD W2(X)").map strUpper := by
  decide

/-- The constructed manager's single seeded snapshot mirrors its
state. -/
theorem syncInv_mkLockManager (ops : List Operation) : SyncInv (mkLockManager ops) :=
  ⟨⟨none, [], initStatuses ops, [], ["Initial state."], false⟩, rfl, rfl, rfl, rfl⟩

/-- `nextStep` always appends a snapshot built from the final state of
the step, so the last snapshot mirrors the state afterwards. -/
theorem syncInv_nextStep (st : LockManager) : SyncInv (nextStep st) := by
  unfold nextStep
  rcases hpwq : processWaitingQueue { st with log := [] } with ⟨st2, processed⟩
  cases processed with
  | true =>
    simp only [hpwq]
    exact ⟨_, List.getLast?_concat _, rfl, rfl, rfl⟩
  | false =>
    simp only [hpwq]
    exact ⟨_, List.getLast?_concat _, rfl, rfl, rfl⟩

/-- C9: calling `nextStep` when every schedule operation has been
processed (`currentStepIndex` at or past `length - 1`) and the
waiting queue is empty is a no-op, not an error: the appended
snapshot keeps the previous snapshot's locks, transaction statuses
and (empty) waiting queue, has `isDeadlock = false`, and its log
records that the simulation is complete.  (`SyncInv` — the last
snapshot mirroring the current state — holds of every manager
reachable from the constructor, by `syncInv_mkLockManager` and
`syncInv_nextStep`.) -/
theorem claim9_step_past_end (st : LockManager) (hsync : SyncInv st)
    (hidx : ¬ st.currentStepIndex < (st.operations.length : Int) - 1)
    (hq : st.waitingQueue = []) :
    ∃ prev newSnap,
      st.history.getLast? = some prev ∧
      (nextStep st).history = st.history ++ [newSnap] ∧
      newSnap.locks = prev.locks ∧
      newSnap.transactionStatuses = prev.transactionStatuses ∧
      newSnap.waitingQueue = prev.waitingQueue ∧
      newSnap.isDeadlock = false ∧
      newSnap.log = ["No more operations in schedule and waiting queue is empty. Simulation complete."] := by
  obtain ⟨prev, hlast, hl, hs, hw⟩ := hsync
  have hq1 : ({ st with log := ([] : List String) } : LockManager).waitingQueue = [] := hq
  have hpwq : processWaitingQueue { st with log := [] } =
      ({ st with log := [], waitingQueue := [] }, false) := by
    unfold processWaitingQueue
    rw [hq1]
    rfl
  simp only [nextStep, advanceSchedule, hpwq]
  rw [if_neg hidx]
  exact ⟨prev, _, hlast, rfl, hl.symm, hs.symm, (hw.trans hq).symm, rfl, rfl⟩

/-- Witness for C9 at the parsed schedule `C1` after one step: all
hypotheses hold and the no-op step behaves as stated. -/
theorem claim9_step_past_end_witness :
    (¬ (nextStep^[1] (mkLockManager (parseSchedule "C1"))).currentStepIndex <
        ((nextStep^[1] (mkLockManager (parseSchedule "C1"))).operations.length : Int) - 1) ∧
    (nextStep^[1] (mkLockManager (parseSchedule "C1"))).waitingQueue = [] ∧
    ∃ prev newSnap,
      (nextStep^[1] (mkLockManager (parseSchedule "C1"))).history.getLast? = some prev ∧
      (nextStep (nextStep^[1] (mkLockManager (parseSchedule "C1")))).history =
        (nextStep^[1] (mkLockManager (parseSchedule "C1"))).history ++ [newSnap] ∧
      newSnap.locks = prev.locks ∧
      newSnap.transactionStatuses = prev.transactionStatuses ∧
      newSnap.waitingQueue = prev.waitingQueue ∧
      newSnap.isDeadlock = false ∧
      newSnap.log = ["No more operations in schedule and waiting queue is empty. Simulation complete."] :=
  ⟨by decide, rfl,
    claim9_step_past_end _ ⟨_, rfl, rfl, rfl, rfl⟩ (by decide) rfl⟩

/- ## Lock-table invariant (C5) -/

theorem lockTableOk_nil : lockTableOk [] := List.Pairwise.nil

theorem mem_filter_var {L : List Lock} {l : Lock} {v : Option String}
    (hl : l ∈ L) (hv : l.var = v) : l ∈ L.filter (fun l => l.var == v) :=
  List.mem_filter.mpr ⟨hl, by simp [hv]⟩

/-- A granted Shared request means every lock on the variable is
shared. -/
theorem canAcquire_S_all_shared {L : List Lock} {tx : String} {v : Option String}
    (h : canAcquireLock L tx v .S = true) :
    ∀ l ∈ L, l.var = v → l.type = .S := by
  intro l hl hv
  by_cases hE : List.filter (fun l => l.var == v) L = []
  · exact absurd (mem_filter_var hl hv) (by simp [hE])
  · simp [canAcquireLock, List.isEmpty_iff, hE] at h
    exact (h l hl).resolve_left (by simp [hv])

/-- A granted Exclusive request means that, once the requester's own
Shared lock on the variable is dropped, any remaining lock on the
variable is the requester's own Exclusive lock. -/
theorem canAcquire_X_filter {L : List Lock} {tx : String} {v : Option String}
    (h : canAcquireLock L tx v .X = true) :
    ∀ l ∈ L.filter (fun l => !(l.transactionId == tx && l.var == v && l.type == LockType.S)),
      l.var = v → l = ⟨tx, v, .X⟩ := by
  intro l hl hv
  rw [List.mem_filter] at hl
  obtain ⟨hlL, hpred⟩ := hl
  simp only [Bool.not_eq_true', Bool.and_eq_true, beq_iff_eq, Bool.and_eq_false_iff,
    decide_eq_true_eq] at hpred
  by_cases hE : List.filter (fun l => l.var == v) L = []
  · exact absurd (mem_filter_var hlL hv) (by simp [hE])
  · simp [canAcquireLock, List.isEmpty_iff, hE] at h
    rcases h with hall | hnone
    · obtain ⟨h1, h2⟩ := (hall l hlL).resolve_left (by simp [hv])
      cases l
      simp_all
    · have htx := hnone l hlL hv
      cases hty : l.type
      · exfalso
        cases l
        simp_all
      · cases l
        simp_all

theorem grantLock_S_eq (L : List Lock) (tx : String) (v : Option String) :
    grantLock L tx v .S =
      if L.any (fun l => l.transactionId == tx && l.var == v && l.type == LockType.S)
      then L else L ++ [⟨tx, v, .S⟩] := rfl

theorem grantLock_X_eq (L : List Lock) (tx : String) (v : Option String) :
    grantLock L tx v .X =
      if (L.filter (fun l => !(l.transactionId == tx && l.var == v && l.type == LockType.S))).any
          (fun l => l.transactionId == tx && l.var == v && l.type == LockType.X)
      then L.filter (fun l => !(l.transactionId == tx && l.var == v && l.type == LockType.S))
      else L.filter (fun l => !(l.transactionId == tx && l.var == v && l.type == LockType.S)) ++
        [⟨tx, v, .X⟩] := rfl

/-- Granting a request that `canAcquireLock` allowed preserves the
pairwise lock-table invariant. -/
theorem lockTableOk_grantLock {L : List Lock} {tx : String} {v : Option String}
    {lt : LockType} (hcan : canAcquireLock L tx v lt = true) (h : lockTableOk L) :
    lockTableOk (grantLock L tx v lt) := by
  cases lt
  case S =>
    rw [grantLock_S_eq]
    split
    · exact h
    · refine List.pairwise_append.mpr ⟨h, List.pairwise_singleton _ _, ?_⟩
      intro a ha b hb
      rw [List.mem_singleton] at hb
      subst hb
      by_cases hav : a.var = v
      · exact Or.inr ⟨canAcquire_S_all_shared hcan a ha hav, rfl⟩
      · exact Or.inl hav
  case X =>
    rw [grantLock_X_eq]
    have hsub : lockTableOk (L.filter (fun l =>
        !(l.transactionId == tx && l.var == v && l.type == LockType.S))) :=
      h.sublist (List.filter_sublist _)
    split
    · exact hsub
    · rename_i hdup
      refine List.pairwise_append.mpr ⟨hsub, List.pairwise_singleton _ _, ?_⟩
      intro a ha b hb
      rw [List.mem_singleton] at hb
      subst hb
      by_cases hav : a.var = v
      · exfalso
        have ha' := canAcquire_X_filter hcan a ha hav
        apply hdup
        refine List.any_eq_true.mpr ⟨a, ha, ?_⟩
        rw [ha']
        simp
      · exact Or.inl hav

theorem pwqGo_locks_ok (q : List WaitEntry) :
    ∀ (locks : List Lock) (sts : List (String × TxStatus)) (log : List String),
      lockTableOk locks → lockTableOk (processWaitingQueueGo q locks sts log).locks := by
  induction q with
  | nil => intro locks sts log h; exact h
  | cons item rest ih =>
    intro locks sts log h
    unfold processWaitingQueueGo
    split
    · rename_i hcan
      exact ih _ _ _ (lockTableOk_grantLock hcan h)
    · exact ih _ _ _ h

theorem processWaitingQueue_fst_locks_ok {st : LockManager} (h : lockTableOk st.locks) :
    lockTableOk (processWaitingQueue st).1.locks :=
  pwqGo_locks_ok _ _ _ _ h

theorem processWaitingQueue_fst_history (st : LockManager) :
    (processWaitingQueue st).1.history = st.history := rfl

theorem releaseLocks_locks_ok {st : LockManager} {tx : String} (h : lockTableOk st.locks) :
    lockTableOk (releaseLocks st tx).locks :=
  processWaitingQueue_fst_locks_ok (h.sublist (List.filter_sublist _))

theorem requestLock_locks_ok {st : LockManager} {tx : String} {v : Option String}
    {lt : LockType} {op : Operation} (h : lockTableOk st.locks) :
    lockTableOk (requestLock st tx v lt op).locks := by
  unfold requestLock
  split
  · rename_i hcan
    simp only []
    split
    · exact lockTableOk_grantLock hcan h
    · exact lockTableOk_grantLock hcan h
  · simp only []
    unfold addToWaitingQueue
    split
    · exact h
    · exact h

theorem requestLock_history (st : LockManager) (tx : String) (v : Option String)
    (lt : LockType) (op : Operation) :
    (requestLock st tx v lt op).history = st.history := by
  unfold requestLock addToWaitingQueue
  split
  · simp only []
    split <;> rfl
  · simp only []
    split <;> rfl

theorem commitTransaction_locks_ok {st : LockManager} {tx : String}
    (h : lockTableOk st.locks) : lockTableOk (commitTransaction st tx).locks :=
  releaseLocks_locks_ok h

theorem abortTransaction_locks_ok {st : LockManager} {tx : String}
    (h : lockTableOk st.locks) : lockTableOk (abortTransaction st tx).locks :=
  releaseLocks_locks_ok h

theorem processOperation_locks_ok {st : LockManager} {op : Operation}
    (h : lockTableOk st.locks) : lockTableOk (processOperation st op).locks := by
  unfold processOperation
  split
  · simp only []
    split
    · exact h
    · unfold addToWaitingQueue
      split
      · exact h
      · exact h
  · split
    · split
      · split
        · exact requestLock_locks_ok h
        · exact h
      · exact h
    · split
      · split
        · exact requestLock_locks_ok h
        · exact h
      · exact h
    · exact commitTransaction_locks_ok h
    · exact abortTransaction_locks_ok h

theorem processOperation_history (st : LockManager) (op : Operation) :
    (processOperation st op).history = st.history := by
  unfold processOperation addToWaitingQueue
  split
  · simp only []
    split <;> rfl
  · split
    · split
      · split
        · exact requestLock_history _ _ _ _ _
        · rfl
      · rfl
    · split
      · split
        · exact requestLock_history _ _ _ _ _
        · rfl
      · rfl
    · rfl
    · rfl

theorem advanceSchedule_locks_ok {st : LockManager} (h : lockTableOk st.locks) :
    lockTableOk (advanceSchedule st).locks := by
  unfold advanceSchedule
  split
  · simp only []
    split
    · split
      · exact h
      · exact h
      · exact processOperation_locks_ok h
    · exact h
  · split
    · simp only []
      split
      · exact processWaitingQueue_fst_locks_ok h
      · exact processWaitingQueue_fst_locks_ok h
    · exact h

theorem advanceSchedule_history (st : LockManager) :
    (advanceSchedule st).history = st.history := by
  unfold advanceSchedule
  split
  · simp only []
    split
    · split
      · rfl
      · rfl
      · exact processOperation_history _ _
    · rfl
  · split
    · simp only []
      split <;> rfl
    · rfl

theorem histOk_mkLockManager (ops : List Operation) : HistOk (mkLockManager ops) := by
  constructor
  · exact lockTableOk_nil
  · intro snap hsnap
    have hh : (mkLockManager ops).history =
        [⟨none, [], initStatuses ops, [], ["Initial state."], false⟩] := rfl
    rw [hh, List.mem_singleton] at hsnap
    subst hsnap
    exact lockTableOk_nil

theorem histOk_nextStep {st : LockManager} (h : HistOk st) : HistOk (nextStep st) := by
  obtain ⟨hlocks, hhist⟩ := h
  unfold nextStep
  rcases hpwq : processWaitingQueue { st with log := [] } with ⟨st2, processed⟩
  have hst2locks : lockTableOk st2.locks := by
    have := @processWaitingQueue_fst_locks_ok { st with log := [] } hlocks
    rw [hpwq] at this
    exact this
  have hst2hist : st2.history = st.history := by
    have := processWaitingQueue_fst_history { st with log := [] }
    rw [hpwq] at this
    exact this
  cases processed with
  | true =>
    simp only [hpwq]
    refine ⟨hst2locks, ?_⟩
    intro snap hsnap
    rcases List.mem_append.mp hsnap with h1 | h2
    · exact hhist snap (hst2hist ▸ h1)
    · rw [List.mem_singleton] at h2
      subst h2
      exact hst2locks
  | false =>
    simp only [hpwq]
    have h3l : lockTableOk (advanceSchedule st2).locks := advanceSchedule_locks_ok hst2locks
    have h3h : (advanceSchedule st2).history = st.history :=
      (advanceSchedule_history st2).trans hst2hist
    by_cases hd : detectDeadlock (advanceSchedule st2).locks (advanceSchedule st2).waitingQueue = true
    · simp only [hd, if_true]
      refine ⟨h3l, ?_⟩
      intro snap hsnap
      rcases List.mem_append.mp hsnap with h1 | h2
      · exact hhist snap (h3h ▸ h1)
      · rw [List.mem_singleton] at h2
        subst h2
        exact h3l
    · rw [Bool.not_eq_true] at hd
      simp only [hd, if_false]
      refine ⟨h3l, ?_⟩
      intro snap hsnap
      rcases List.mem_append.mp hsnap with h1 | h2
      · exact hhist snap (h3h ▸ h1)
      · rw [List.mem_singleton] at h2
        subst h2
        exact h3l

theorem histOk_iterate (ops : List Operation) (n : Nat) :
    HistOk (nextStep^[n] (mkLockManager ops)) := by
  induction n with
  | zero => exact histOk_mkLockManager ops
  | succ n ih =>
    rw [Function.iterate_succ_apply']
    exact histOk_nextStep ih

theorem lock_rel_symm :
    Symmetric (fun l1 l2 : Lock => l1.var ≠ l2.var ∨ (l1.type = .S ∧ l2.type = .S)) :=
  fun _ _ hab => hab.imp Ne.symm And.symm

/-- The pairwise invariant yields the claim's two properties: per
variable at most one Exclusive entry, and never an Exclusive entry
alongside a Shared one. -/
theorem lockTableOk_props {L : List Lock} (h : lockTableOk L) (v : Option String) :
    (L.filter (fun l => l.var == v && l.type == LockType.X)).length ≤ 1 ∧
    ¬ ((∃ l ∈ L, l.var = v ∧ l.type = LockType.X) ∧
       (∃ l ∈ L, l.var = v ∧ l.type = LockType.S)) := by
  constructor
  · by_contra hlen
    push_neg at hlen
    have hpw : List.Pairwise (fun l1 l2 : Lock => l1.var ≠ l2.var ∨ (l1.type = .S ∧ l2.type = .S))
        (L.filter (fun l => l.var == v && l.type == LockType.X)) :=
      h.sublist (List.filter_sublist _)
    rcases hFe : L.filter (fun l => l.var == v && l.type == LockType.X) with _ | ⟨a, _ | ⟨b, t⟩⟩
    · rw [hFe] at hlen; simp at hlen
    · rw [hFe] at hlen; simp at hlen
    · rw [hFe] at hpw
      have hab := (List.pairwise_cons.mp hpw).1 b (List.mem_cons_self _ _)
      have haF : a ∈ L.filter (fun l => l.var == v && l.type == LockType.X) := by
        rw [hFe]; exact List.mem_cons_self _ _
      have hbF : b ∈ L.filter (fun l => l.var == v && l.type == LockType.X) := by
        rw [hFe]; exact List.mem_cons_of_mem _ (List.mem_cons_self _ _)
      rw [List.mem_filter] at haF hbF
      have ha := haF.2
      have hb := hbF.2
      simp only [Bool.and_eq_true, beq_iff_eq] at ha hb
      rcases hab with hne | ⟨hS, _⟩
      · exact hne (ha.1.trans hb.1.symm)
      · rw [ha.2] at hS
        cases hS
  · rintro ⟨⟨l1, h1, hv1, ht1⟩, ⟨l2, h2, hv2, ht2⟩⟩
    have hne : l1 ≠ l2 := by
      intro he
      rw [he, ht2] at ht1
      cases ht1
    have hR := List.Pairwise.forall lock_rel_symm h h1 h2 hne
    rcases hR with hnev | ⟨hS1, _⟩
    · exact hnev (hv1.trans hv2.symm)
    · rw [ht1] at hS1
      cases hS1

/-- C5: for every operation sequence and every number of `nextStep`
calls on the lock manager built from it, every recorded simulation
snapshot satisfies the lock invariant: no variable has more than one
Exclusive lock in its `locks` list, and no variable simultaneously
has an Exclusive and a Shared lock. -/
theorem claim5_lock_table_invariant (ops : List Operation) (n : Nat) (snap : SimStep)
    (hmem : snap ∈ (nextStep^[n] (mkLockManager ops)).history) (v : Option String) :
    (snap.locks.filter (fun l => l.var == v && l.type == LockType.X)).length ≤ 1 ∧
    ¬ ((∃ l ∈ snap.locks, l.var = v ∧ l.type = LockType.X) ∧
       (∃ l ∈ snap.locks, l.var = v ∧ l.type = LockType.S)) :=
  lockTableOk_props ((histOk_iterate ops n).2 snap hmem) v

/-- Witness for C5 at the parsed schedule `W1(A)` after one step: the
snapshot holding T1's Exclusive lock on `A` is in the history and
satisfies the invariant at variable `A`. -/
theorem claim5_lock_table_invariant_witness :
    ((⟨some ⟨"W1(A)-0", .W, "T1", some "A", "W1(A)", 0⟩,
        [⟨"T1", some "A", .X⟩], [("T1", TxStatus.Active)], [],
        ["T1 acquired X-lock on A for W1(A)."], false⟩ : SimStep) ∈
      (nextStep^[1] (mkLockManager (parseSchedule "W1(A)"))).history) ∧
    (([⟨"T1", some "A", LockType.X⟩] : List Lock).filter
        (fun l => l.var == some "A" && l.type == LockType.X)).length ≤ 1 ∧
    ¬ ((∃ l ∈ ([⟨"T1", some "A", LockType.X⟩] : List Lock),
          l.var = some "A" ∧ l.type = LockType.X) ∧
       (∃ l ∈ ([⟨"T1", some "A", LockType.X⟩] : List Lock),
          l.var = some "A" ∧ l.type = LockType.S)) :=
  ⟨by decide,
    claim5_lock_table_invariant (parseSchedule "W1(A)") 1
      ⟨some ⟨"W1(A)-0", .W, "T1", some "A", "W1(A)", 0⟩,
        [⟨"T1", some "A", .X⟩], [("T1", TxStatus.Active)], [],
        ["T1 acquired X-lock on A for W1(A)."], false⟩
      (by decide) (some "A")⟩

/- ## Conflict-detector characterization (C1) -/

/-- The loop body of `detectConflicts` produces a conflict for a pair
exactly when the guard holds and the type table applies. -/
theorem mkConflict?_eq_some {op1 op2 : Operation} {c : Conflict} :
    mkConflict? op1 op2 = some c ↔
      ∃ v t, op1.transactionId ≠ op2.transactionId ∧ op1.var = some v ∧ v ≠ "" ∧
        op2.var = some v ∧ (op1.type = .W ∨ op2.type = .W) ∧
        conflictTypeOf op1.type op2.type = some t ∧ op1.step < op2.step ∧
        c = ⟨op1, op2, t, v⟩ := by
  constructor
  · intro h
    unfold mkConflict? at h
    split at h
    · rename_i hcond
      split at h
      · rename_i t v hct hov
        injection h with h
        subst h
        simp only [conflictCond, hov, Bool.and_eq_true, decide_eq_true_eq, bne_iff_ne,
          ne_eq, Bool.or_eq_true, beq_iff_eq] at hcond
        obtain ⟨⟨⟨hnt, hne, hv2⟩, hw⟩, hlt⟩ := hcond
        exact ⟨v, t, hnt, hov, hne, hv2, hw, hct, hlt, rfl⟩
      · exact absurd h (by simp)
    · exact absurd h (by simp)
  · rintro ⟨v, t, hnt, hv1, hne, hv2, hw, hct, hlt, rfl⟩
    unfold mkConflict?
    rw [if_pos]
    · rw [hct, hv1]
    · simp only [conflictCond, hv1, Bool.and_eq_true, decide_eq_true_eq, bne_iff_ne,
        ne_eq, Bool.or_eq_true, beq_iff_eq]
      exact ⟨⟨⟨hnt, hne, hv2⟩, hw⟩, hlt⟩

/-- C1 (amended): `detectConflicts` reports a conflict for `(op1, op2)`
iff the two operations come from different transactions, share the
same non-empty variable, have steps in strictly increasing order, and
their ordered type pair is in the conflict-type table — `(R,W)`,
`(W,R)` or `(W,W)`, i.e. both are Reads or Writes with at least one
Write — with the conflict typed RW/WR/WW accordingly; and no reported
conflict has `op1.step ≥ op2.step`. -/
theorem claim1_conflict_iff_amended (ops : List Operation) (c : Conflict) :
    (c ∈ detectConflicts ops ↔
      ∃ op1 ∈ ops, ∃ op2 ∈ ops, ∃ v t,
        op1.transactionId ≠ op2.transactionId ∧ op1.var = some v ∧ v ≠ "" ∧
        op2.var = some v ∧ (op1.type = .W ∨ op2.type = .W) ∧
        conflictTypeOf op1.type op2.type = some t ∧ op1.step < op2.step ∧
        c = ⟨op1, op2, t, v⟩) ∧
    (c ∈ detectConflicts ops → c.op1.step < c.op2.step) := by
  have hmem : c ∈ detectConflicts ops ↔
      ∃ op1 ∈ ops, ∃ op2 ∈ ops, mkConflict? op1 op2 = some c := by
    unfold detectConflicts
    simp [List.mem_flatMap, List.mem_filterMap]
  constructor
  · rw [hmem]
    constructor
    · rintro ⟨op1, h1, op2, h2, hmk⟩
      obtain ⟨v, t, hnt, hv1, hne, hv2, hw, hct, hlt, hc⟩ := mkConflict?_eq_some.mp hmk
      exact ⟨op1, h1, op2, h2, v, t, hnt, hv1, hne, hv2, hw, hct, hlt, hc⟩
    · rintro ⟨op1, h1, op2, h2, v, t, hnt, hv1, hne, hv2, hw, hct, hlt, hc⟩
      exact ⟨op1, h1, op2, h2, mkConflict?_eq_some.mpr ⟨v, t, hnt, hv1, hne, hv2, hw, hct, hlt, hc⟩⟩
  · intro hc
    obtain ⟨op1, h1, op2, h2, hmk⟩ := hmem.mp hc
    obtain ⟨v, t, _, _, _, _, _, _, hlt, hceq⟩ := mkConflict?_eq_some.mp hmk
    subst hceq
    exact hlt

/-- Witness for C1 (amended) at the parsed schedule `R1(X); W2(X)`:
its RW conflict is reported and is time-ordered. -/
theorem claim1_conflict_iff_amended_witness :
    ((⟨⟨"R1(X)-0", .R, "T1", some "X", "R1(X)", 0⟩,
       ⟨"W2(X)-1", .W, "T2", some "X", "W2(X)", 1⟩, .RW, "X"⟩ : Conflict) ∈
        detectConflicts (parseSchedule "R1(X); W2(X)")) ∧
    (0 < 1) :=
  ⟨by decide,
    (claim1_conflict_iff_amended (parseSchedule "R1(X); W2(X)")
      ⟨⟨"R1(X)-0", .R, "T1", some "X", "R1(X)", 0⟩,
       ⟨"W2(X)-1", .W, "T2", some "X", "W2(X)", 1⟩, .RW, "X"⟩).2 (by decide)⟩

/- ## Parser step numbering and round trip (C7, C8, C10) -/

theorem pgo_step_ge (toks : List String) :
    ∀ (i : Nat), ∀ op ∈ parseScheduleGo toks i, i ≤ op.step := by
  induction toks with
  | nil => intro i op hop; simp [parseScheduleGo] at hop
  | cons tok rest ih =>
    intro i op hop
    unfold parseScheduleGo at hop
    simp only [] at hop
    rcases hmt : matchToken (strUpper tok).data with _ | ⟨ty, num, v⟩
    · rw [hmt] at hop
      exact le_trans (Nat.le_succ i) (ih (i + 1) op hop)
    · rw [hmt] at hop
      rcases List.mem_cons.mp hop with rfl | hmem
      · exact Nat.le_refl _
      · exact le_trans (Nat.le_succ i) (ih (i + 1) op hmem)

theorem pgo_pairwise (toks : List String) :
    ∀ (i : Nat), List.Pairwise (fun a b : Operation => a.step < b.step) (parseScheduleGo toks i) := by
  induction toks with
  | nil => intro i; simp [parseScheduleGo]
  | cons tok rest ih =>
    intro i
    unfold parseScheduleGo
    simp only []
    rcases hmt : matchToken (strUpper tok).data with _ | ⟨ty, num, v⟩
    · exact ih (i + 1)
    · refine List.pairwise_cons.mpr ⟨?_, ih (i + 1)⟩
      intro b hb
      have := pgo_step_ge rest (i + 1) b hb
      simp only [mkOperation]
      omega

/-- Every produced operation is the parse of the token sitting at
position `step − i` of the remaining token list. -/
theorem pgo_token (toks : List String) :
    ∀ (i : Nat), ∀ op ∈ parseScheduleGo toks i, ∃ tok ty num v,
      toks.get? (op.step - i) = some tok ∧
      matchToken (strUpper tok).data = some (ty, num, v) ∧
      op = mkOperation op.step (strUpper tok) ty num v := by
  induction toks with
  | nil => intro i op hop; simp [parseScheduleGo] at hop
  | cons tok rest ih =>
    intro i op hop
    unfold parseScheduleGo at hop
    simp only [] at hop
    rcases hmt : matchToken (strUpper tok).data with _ | ⟨ty, num, v⟩
    · rw [hmt] at hop
      obtain ⟨tok', ty', num', v', hget, hmt', hop'⟩ := ih (i + 1) op hop
      have hge := pgo_step_ge rest (i + 1) op hop
      refine ⟨tok', ty', num', v', ?_, hmt', hop'⟩
      have harith : op.step - i = (op.step - (i + 1)) + 1 := by omega
      rw [harith]
      simpa using hget
    · rw [hmt] at hop
      rcases List.mem_cons.mp hop with rfl | hmem
      · exact ⟨tok, ty, num, v, by simp [mkOperation], hmt, rfl⟩
      · obtain ⟨tok', ty', num', v', hget, hmt', hop'⟩ := ih (i + 1) op hmem
        have hge := pgo_step_ge rest (i + 1) op hmem
        refine ⟨tok', ty', num', v', ?_, hmt', hop'⟩
        have harith : op.step - i = (op.step - (i + 1)) + 1 := by omega
        rw [harith]
        simpa using hget

/-- C7 (amended): each produced operation's `step` is the 0-based
position of its source token among *all* normalized tokens — the
valid and the dropped invalid ones alike — so the steps are strictly
increasing but may skip the indices of dropped tokens. -/
theorem claim7_step_numbering_amended (s : String) :
    List.Pairwise (fun a b : Operation => a.step < b.step) (parseSchedule s) ∧
    ∀ op ∈ parseSchedule s, ∃ tok ty num v,
      (tokenize s).get? op.step = some tok ∧
      matchToken (strUpper tok).data = some (ty, num, v) ∧
      op = mkOperation op.step (strUpper tok) ty num v := by
  constructor
  · exact pgo_pairwise (tokenize s) 0
  · intro op hop
    obtain ⟨tok, ty, num, v, hget, hmt, hop'⟩ := pgo_token (tokenize s) 0 op hop
    exact ⟨tok, ty, num, v, by simpa using hget, hmt, hop'⟩

/-- Witness for C7 (amended): the second operation of
`R1(X) BAD W2(X)` carries step 2, the position of its token among all
three normalized tokens. -/
theorem claim7_step_numbering_amended_witness :
    ((⟨"W2(X)-2", .W, "T2", some "X", "W2(X)", 2⟩ : Operation) ∈
        parseSchedule "R1(X) BAD W2(X)") ∧
    ∃ tok ty num v,
      (tokenize "R1(X) BAD W2(X)").get? 2 = some tok ∧
      matchToken (strUpper tok).data = some (ty, num, v) ∧
      (⟨"W2(X)-2", .W, "T2", some "X", "W2(X)", 2⟩ : Operation) =
        mkOperation 2 (strUpper tok) ty num v :=
  ⟨by decide,
    (claim7_step_numbering_amended "R1(X) BAD W2(X)").2
      ⟨"W2(X)-2", .W, "T2", some "X", "W2(X)", 2⟩ (by decide)⟩

theorem pgo_originalStrings (toks : List String) :
    ∀ (i : Nat), (∀ tok ∈ toks, (matchToken (strUpper tok).data).isSome) →
      (parseScheduleGo toks i).map Operation.originalString = toks.map strUpper := by
  induction toks with
  | nil => intro i _; rfl
  | cons tok rest ih =>
    intro i h
    have htok := h tok (List.mem_cons_self _ _)
    rw [Option.isSome_iff_exists] at htok
    obtain ⟨⟨ty, num, v⟩, hmt⟩ := htok
    unfold parseScheduleGo
    simp only []
    rw [hmt]
    simp only [List.map_cons]
    refine congrArg₂ _ rfl ?_
    exact ih (i + 1) (fun t ht => h t (List.mem_cons_of_mem _ ht))

/-- C8 (amended): when every normalized token of the input matches
the grammar, reading the produced operations' stored original texts
in order reproduces the input's normalized token sequence up to case
(each stored text is the upper-cased token). -/
theorem claim8_roundtrip_amended (s : String)
    (hvalid : ∀ tok ∈ tokenize s, (matchToken (strUpper tok).data).isSome) :
    (parseSchedule s).map Operation.originalString = (tokenize s).map strUpper :=
  pgo_originalStrings (tokenize s) 0 hvalid

/-- Witness for C8 (amended) on `r1(x); w2(X), C1`, an input with
mixed case and mixed separators whose tokens are all valid. -/
theorem claim8_roundtrip_amended_witness :
    (∀ tok ∈ tokenize "r1(x); w2(X), C1", (matchToken (strUpper tok).data).isSome) ∧
    (parseSchedule "r1(x); w2(X), C1").map Operation.originalString =
      (tokenize "r1(x); w2(X), C1").map strUpper :=
  ⟨by decide, claim8_roundtrip_amended "r1(x); w2(X), C1" (by decide)⟩

/-- `Char.toUpper` never returns an ASCII lowercase letter. -/
theorem toUpper_isLower_false (c : Char) : (Char.toUpper c).isLower = false := by
  unfold Char.toUpper
  simp only []
  split
  · rename_i h
    have hv : Nat.isValidChar (Char.toNat c - 32) := Or.inl (by omega)
    unfold Char.ofNat
    rw [dif_pos hv]
    unfold Char.ofNatAux Char.isLower
    simp only [ge_iff_le, Bool.and_eq_false_iff, decide_eq_false_iff_not]
    left
    intro hle
    have h97 : (97 : Nat) < UInt32.size := by decide
    have h32 := UInt32.le_toNat_of_le h97 hle
    simp only [UInt32.toNat, BitVec.toNat_ofNatLt] at h32
    omega
  · rename_i h
    unfold Char.isLower
    simp only [ge_iff_le, Bool.and_eq_false_iff, decide_eq_false_iff_not]
    by_contra hcon
    push_neg at hcon
    obtain ⟨h1, h2⟩ := hcon
    have h97 : (97 : Nat) < UInt32.size := by decide
    have h122 : (122 : Nat) < UInt32.size := by decide
    have ha := UInt32.le_toNat_of_le h97 h1
    have hb := UInt32.toNat_le_of_le h122 h2
    exact h ⟨ha, hb⟩

theorem strUpper_no_lower (t : String) : ∀ c ∈ (strUpper t).data, c.isLower = false := by
  intro c hc
  have : (strUpper t).data = t.data.map Char.toUpper := rfl
  rw [this, List.mem_map] at hc
  obtain ⟨d, _, rfl⟩ := hc
  exact toUpper_isLower_false d

/-- The variable name returned by `matchToken` is made of characters
of the matched token. -/
theorem matchToken_var_chars {cs : List Char} {ty : OperationType} {num : String}
    {vs : String} (h : matchToken cs = some (ty, num, some vs)) :
    ∀ ch ∈ vs.data, ch ∈ cs := by
  intro ch hch
  cases cs with
  | nil => simp [matchToken] at h
  | cons c0 rest =>
    unfold matchToken at h
    simp only [] at h
    rcases hct : charOpType c0 with _ | ty'
    · rw [hct] at h; simp at h
    · rw [hct] at h
      simp only [] at h
      split at h
      · simp at h
      · split at h
        · simp at h
        · rename_i r heq
          split at h
          · simp at h
          · split at h
            · rename_i heq2
              injection h with h
              injection h with h1 h2
              injection h2 with h2 h3
              injection h3 with h3
              subst h3
              have hch' : ch ∈ r.takeWhile (fun d => d ≠ ')') := hch
              have hr : ch ∈ r := (List.takeWhile_sublist _).mem hch'
              have hr2 : ch ∈ List.dropWhile Char.isDigit rest := by
                rw [heq]
                exact List.mem_cons_of_mem _ hr
              exact List.mem_cons_of_mem _ ((List.dropWhile_sublist _).mem hr2)
            · simp at h
        · simp at h

/-- C10: every produced operation's stored original text and variable
name contain no lowercase letter (the parser upper-cases the whole
token before matching); consequently `R1(x)` and `W2(X)` parse to the
same variable `X` and conflict detection reports their RW conflict on
`X`. -/
theorem claim10_uppercase_normalization :
    (∀ (s : String), ∀ op ∈ parseSchedule s,
      (∀ ch ∈ op.originalString.data, ch.isLower = false) ∧
      (∀ vs, op.var = some vs → ∀ ch ∈ vs.data, ch.isLower = false)) ∧
    ((parseSchedule "R1(x); W2(X)").map Operation.var = [some "X", some "X"] ∧
      (detectConflicts (parseSchedule "R1(x); W2(X)")).map
          (fun c => (c.op1.transactionId, c.op2.transactionId, c.type, c.var)) =
        [("T1", "T2", ConflictType.RW, "X")]) := by
  constructor
  · intro s op hop
    obtain ⟨tok, ty, num, v, hget, hmt, hop'⟩ := pgo_token (tokenize s) 0 op hop
    have horig : op.originalString = strUpper tok := by rw [hop']; rfl
    have hvar : op.var = v := by rw [hop']; rfl
    constructor
    · intro ch hch
      rw [horig] at hch
      exact strUpper_no_lower tok ch hch
    · intro vs hvs ch hch
      rw [hvar] at hvs
      rw [hvs] at hmt
      exact strUpper_no_lower tok ch (matchToken_var_chars hmt ch hch)
  · exact ⟨by decide, by decide⟩

/-- Witness for C10 at the input `R1(x)`: its operation is produced
with upper-cased text and variable, and both contain no lowercase
letter. -/
theorem claim10_uppercase_normalization_witness :
    ((⟨"R1(X)-0", .R, "T1", some "X", "R1(X)", 0⟩ : Operation) ∈ parseSchedule "R1(x)") ∧
    (∀ ch ∈ ("R1(X)" : String).data, ch.isLower = false) ∧
    (∀ vs, (some "X" : Option String) = some vs → ∀ ch ∈ vs.data, ch.isLower = false) :=
  ⟨by decide,
    (claim10_uppercase_normalization.1 "R1(x)"
      ⟨"R1(X)-0", .R, "T1", some "X", "R1(X)", 0⟩ (by decide)).1,
    (claim10_uppercase_normalization.1 "R1(x)"
      ⟨"R1(X)-0", .R, "T1", some "X", "R1(X)", 0⟩ (by decide)).2⟩

/- ## Strict 2PL characterization (C3) -/

/-- `ops.get? k = some o` pins `o.step = k` when the steps are exactly
the positions. -/
theorem step_of_get? {ops : List Operation}
    (hsteps : ops.map Operation.step = List.range ops.length)
    {k : Nat} {o : Operation} (h : ops.get? k = some o) : o.step = k := by
  have hk : k < ops.length := by
    by_contra hk
    push_neg at hk
    rw [List.get?_eq_none.mpr hk] at h
    cases h
  have h1 : (ops.map Operation.step).get? k = some o.step := by
    rw [List.get?_map, h]
    rfl
  rw [hsteps, List.get?_range hk] at h1
  injection h1 with h1
  exact h1.symm

theorem mem_insertByStep {x y : Operation} {l : List Operation} :
    x ∈ insertByStep y l ↔ x = y ∨ x ∈ l := by
  induction l with
  | nil => simp [insertByStep]
  | cons a l ih =>
    unfold insertByStep
    split
    · simp [List.mem_cons]
    · rw [List.mem_cons, ih, List.mem_cons]
      tauto

theorem mem_sortByStep {x : Operation} {l : List Operation} :
    x ∈ sortByStep l ↔ x ∈ l := by
  induction l with
  | nil => simp [sortByStep]
  | cons a l ih =>
    have : sortByStep (a :: l) = insertByStep a (sortByStep l) := rfl
    rw [this, mem_insertByStep, ih, List.mem_cons]

theorem mem_opsForTx {x : Operation} {ops : List Operation} {txId : String} :
    x ∈ opsForTx ops txId ↔ x ∈ ops ∧ x.transactionId = txId := by
  unfold opsForTx
  rw [mem_sortByStep, List.mem_filter]
  simp

/-- The inner scan of `analyzeStrict2PL` hits exactly when some other
transaction's Read/Write with the Write's variable field lies at a
step strictly between the Write and the Commit/Abort — provided steps
equal positions, so that indexing `allOps[k]` agrees with steps. -/
theorem strictScanHit_iff {txId : String} {ops : List Operation}
    (hsteps : ops.map Operation.step = List.range ops.length)
    (w ca : Operation) :
    strictScanHit txId ops w ca.step = true ↔
      ∃ o ∈ ops, o.transactionId ≠ txId ∧ o.var = w.var ∧
        (o.type = .R ∨ o.type = .W) ∧ w.step < o.step ∧ o.step < ca.step := by
  unfold strictScanHit
  rw [List.any_eq_true]
  constructor
  · rintro ⟨k, hk, hfk⟩
    rw [List.mem_range'_1] at hk
    rcases hget : ops.get? k with _ | o
    · rw [hget] at hfk; cases hfk
    · rw [hget] at hfk
      simp only [Bool.and_eq_true, bne_iff_ne, ne_eq, beq_iff_eq, Bool.or_eq_true,
        decide_eq_true_eq] at hfk
      obtain ⟨⟨hnt, hv⟩, hty⟩ := hfk
      have hstep := step_of_get? hsteps hget
      refine ⟨o, List.get?_mem hget, hnt, hv, hty, ?_, ?_⟩ <;> omega
  · rintro ⟨o, ho, hnt, hv, hty, h1, h2⟩
    obtain ⟨k, hget⟩ := List.mem_iff_get?.mp ho
    have hstep := step_of_get? hsteps hget
    refine ⟨o.step, ?_, ?_⟩
    · rw [List.mem_range'_1]
      omega
    · rw [hstep, hget]
      simp only [Bool.and_eq_true, bne_iff_ne, ne_eq, beq_iff_eq, Bool.or_eq_true,
        decide_eq_true_eq]
      exact ⟨⟨hnt, hv⟩, hty⟩

/-- C3 (amended): strict2PL is true only if basic2PL is; given
basic2PL holds, a transaction with Writes but no Commit/Abort fails
strict2PL; and otherwise — for schedules whose steps equal their
positions (no dropped tokens) and whose Reads/Writes carry variables
(no bare `W1`-style tokens) — strict2PL is false iff some other
transaction reads or writes the variable of one of this transaction's
Writes at a step strictly between that Write and this transaction's
first Commit/Abort. -/
theorem claim3_strict2PL_amended (ops : List Operation) (txId : String)
    (hsteps : ops.map Operation.step = List.range ops.length)
    (hvars : ∀ op ∈ ops, (op.type = .R ∨ op.type = .W) → op.var.isSome) :
    (analyzeStrict2PL txId ops (opsForTx ops txId)
        (analyzeBasic2PL txId ops (opsForTx ops txId)) = true →
      analyzeBasic2PL txId ops (opsForTx ops txId) = true) ∧
    (analyzeBasic2PL txId ops (opsForTx ops txId) = true →
      ((((∃ w ∈ opsForTx ops txId, w.type = .W) ∧
          (opsForTx ops txId).find? isTermination = none) →
        analyzeStrict2PL txId ops (opsForTx ops txId) true = false) ∧
      (¬((∃ w ∈ opsForTx ops txId, w.type = .W) ∧
          (opsForTx ops txId).find? isTermination = none) →
        (analyzeStrict2PL txId ops (opsForTx ops txId) true = false ↔
          strictSpecViolation txId ops)))) := by
  refine ⟨?_, ?_⟩
  · intro hs
    by_contra hb
    rw [Bool.not_eq_true] at hb
    rw [hb] at hs
    simp [analyzeStrict2PL] at hs
  · intro _
    constructor
    · rintro ⟨⟨w, hw, hwty⟩, hnone⟩
      have hany : (opsForTx ops txId).any (fun op => op.type == OperationType.W) = true :=
        List.any_eq_true.mpr ⟨w, hw, by simp [hwty]⟩
      simp [analyzeStrict2PL, hnone, hany]
    · intro hnot
      rcases hfind : (opsForTx ops txId).find? isTermination with _ | ca
      · have hnoW : ¬ ∃ w ∈ opsForTx ops txId, w.type = .W := fun hW => hnot ⟨hW, hfind⟩
        have hany : (opsForTx ops txId).any (fun op => op.type == OperationType.W) = false := by
          rw [List.any_eq_false]
          intro x hx hxty
          exact hnoW ⟨x, hx, by simpa using hxty⟩
        constructor
        · intro hsf
          exfalso
          simp [analyzeStrict2PL, hfind, hany] at hsf
        · intro hviol
          obtain ⟨ca', hca', hfind', _⟩ := hviol
          rw [hfind] at hfind'
          cases hfind'
      · have hiff : (analyzeStrict2PL txId ops (opsForTx ops txId) true = false) ↔
            ∃ w ∈ (opsForTx ops txId).filter (fun op => op.type == OperationType.W),
              strictScanHit txId ops w ca.step = true := by
          simp only [analyzeStrict2PL, hfind, Bool.not_true, Bool.false_eq_true, if_false,
            Bool.not_eq_false', List.any_eq_true, List.mem_filter, Bool.and_eq_true, beq_iff_eq]
        rw [hiff]
        constructor
        · rintro ⟨w, hwf, hscan⟩
          rw [List.mem_filter] at hwf
          obtain ⟨hwmem, hwtyb⟩ := hwf
          have hwty : w.type = .W := by simpa using hwtyb
          obtain ⟨o, ho, hnt, hv, hty, h1, h2⟩ := (strictScanHit_iff hsteps w ca).mp hscan
          have hwops : w ∈ ops := (mem_opsForTx.mp hwmem).1
          have hvsome : w.var.isSome := hvars w hwops (Or.inr hwty)
          exact ⟨ca, List.mem_of_find?_eq_some hfind, hfind,
            w, hwmem, hwty, hvsome, o, ho, hnt, hv, hty, h1, h2⟩
        · rintro ⟨ca', hca'mem, hfind', w, hwmem, hwty, hvsome, o, ho, hnt, hv, hty, h1, h2⟩
          rw [hfind] at hfind'
          injection hfind' with he
          subst he
          exact ⟨w, List.mem_filter.mpr ⟨hwmem, by simp [hwty]⟩,
            (strictScanHit_iff hsteps w ca).mpr ⟨o, ho, hnt, hv, hty, h1, h2⟩⟩

/-- Witness for C3 (amended) at the scenario `W1(X); R2(X); C1`: the
hypotheses hold, T1 passes Basic 2PL, and Strict 2PL fails for T1 —
obtained through the amended equivalence from the witnessing access
R2(X) between W1(X) and C1. -/
theorem claim3_strict2PL_amended_witness :
    (parseSchedule "W1(X); R2(X); C1").map Operation.step =
      List.range (parseSchedule "W1(X); R2(X); C1").length ∧
    (∀ op ∈ parseSchedule "W1(X); R2(X); C1",
      (op.type = .R ∨ op.type = .W) → op.var.isSome) ∧
    analyzeBasic2PL "T1" (parseSchedule "W1(X); R2(X); C1")
      (opsForTx (parseSchedule "W1(X); R2(X); C1") "T1") = true ∧
    analyzeStrict2PL "T1" (parseSchedule "W1(X); R2(X); C1")
      (opsForTx (parseSchedule "W1(X); R2(X); C1") "T1") true = false ∧
    strictSpecViolation "T1" (parseSchedule "W1(X); R2(X); C1") :=
  ⟨by decide, by decide, by decide,
    (((claim3_strict2PL_amended (parseSchedule "W1(X); R2(X); C1") "T1"
        (by decide) (by decide)).2 (by decide)).2 (by decide)).mpr (by decide),
    by decide⟩

/- ## Cascadelessness characterization (C4) -/

/-- The candidate predicate of the `latestWriter` scan: a strictly
earlier Write on `v` by a transaction other than the reader. -/
def priorWriter (readerTx : String) (v : String) (readStep : Nat) (w : Operation) : Prop :=
  w.step < readStep ∧ w.type = .W ∧ w.var = some v ∧ w.transactionId ≠ readerTx

theorem priorWriter_cond {rtx v : String} {s : Nat} {w : Operation} :
    (w.step < s && w.type == OperationType.W && w.var == some v &&
      decide (w.transactionId ≠ rtx)) = true ↔ priorWriter rtx v s w := by
  unfold priorWriter
  simp [and_assoc]

theorem lw_foldl_eq_none {rtx v : String} {s : Nat} :
    ∀ (l : List Operation) (acc : Option (String × Nat)),
      l.foldl (latestWriterStep rtx v s) acc = none ↔
        acc = none ∧ ∀ w ∈ l, ¬ priorWriter rtx v s w := by
  intro l
  induction l with
  | nil => intro acc; simp
  | cons w l ih =>
    intro acc
    rw [List.foldl_cons, ih]
    have hstep : latestWriterStep rtx v s acc w = none ↔
        acc = none ∧ ¬ priorWriter rtx v s w := by
      unfold latestWriterStep
      split
      · rename_i hcond
        have hp := priorWriter_cond.mp hcond
        cases acc with
        | none => simp [hp]
        | some p =>
          rcases p with ⟨t0, s0⟩
          simp only []
          split <;> simp
      · rename_i hcond
        have hnp : ¬ priorWriter rtx v s w := fun hp => hcond (priorWriter_cond.mpr hp)
        simp [hnp]
    rw [hstep]
    constructor
    · rintro ⟨⟨h1, h2⟩, h3⟩
      exact ⟨h1, by
        intro x hx
        rcases List.mem_cons.mp hx with rfl | hxl
        · exact h2
        · exact h3 x hxl⟩
    · rintro ⟨h1, h2⟩
      exact ⟨⟨h1, h2 w (List.mem_cons_self _ _)⟩,
        fun x hx => h2 x (List.mem_cons_of_mem _ hx)⟩

/-- What a `some` result of the `latestWriter` fold certifies: its
origin (the accumulator or a candidate of the list), and that its
recorded step bounds every candidate and the accumulator. -/
theorem lw_foldl_eq_some {rtx v : String} {s : Nat} :
    ∀ (l : List Operation) (acc : Option (String × Nat)) (t : String) (st : Nat),
      l.foldl (latestWriterStep rtx v s) acc = some (t, st) →
        ((acc = some (t, st) ∨ ∃ w ∈ l, priorWriter rtx v s w ∧ w.transactionId = t ∧ w.step = st) ∧
         (∀ w ∈ l, priorWriter rtx v s w → w.step ≤ st) ∧
         (∀ p : String × Nat, acc = some p → p.2 ≤ st)) := by
  intro l
  induction l with
  | nil =>
    intro acc t st h
    rw [List.foldl_nil] at h
    refine ⟨Or.inl h, by simp, ?_⟩
    intro p hp
    rw [h] at hp
    injection hp with hp
    rw [← hp]
  | cons w l ih =>
    intro acc t st h
    rw [List.foldl_cons] at h
    obtain ⟨horigin, hboundl, haccb⟩ := ih (latestWriterStep rtx v s acc w) t st h
    have hstep_cases :
        (¬ priorWriter rtx v s w ∧ latestWriterStep rtx v s acc w = acc) ∨
        (priorWriter rtx v s w ∧ ∃ q : String × Nat,
          latestWriterStep rtx v s acc w = some q ∧ w.step ≤ q.2 ∧
          (q = (w.transactionId, w.step) ∨ acc = some q) ∧
          (∀ p : String × Nat, acc = some p → p.2 ≤ q.2)) := by
      unfold latestWriterStep
      split
      · rename_i hcond
        have hp := priorWriter_cond.mp hcond
        right
        refine ⟨hp, ?_⟩
        cases acc with
        | none => exact ⟨(w.transactionId, w.step), rfl, Nat.le_refl _, Or.inl rfl, by simp⟩
        | some p =>
          rcases p with ⟨t0, s0⟩
          simp only []
          split
          · rename_i hgt
            refine ⟨(w.transactionId, w.step), rfl, Nat.le_refl _, Or.inl rfl, ?_⟩
            rintro ⟨pt, ps⟩ hps
            injection hps with hps
            rw [← hps]
            omega
          · rename_i hgt
            refine ⟨(t0, s0), rfl, by omega, Or.inr rfl, ?_⟩
            rintro ⟨pt, ps⟩ hps
            injection hps with hps
            rw [← hps]
      · rename_i hcond
        exact Or.inl ⟨fun hp => hcond (priorWriter_cond.mpr hp), rfl⟩
    rcases hstep_cases with ⟨hnp, heq⟩ | ⟨hp, q, heq, hwq, hqor, hqacc⟩
    · rw [heq] at horigin haccb
      refine ⟨?_, ?_, haccb⟩
      · rcases horigin with h1 | ⟨w', hw', hrest⟩
        · exact Or.inl h1
        · exact Or.inr ⟨w', List.mem_cons_of_mem _ hw', hrest⟩
      · intro x hx hpx
        rcases List.mem_cons.mp hx with rfl | hxl
        · exact absurd hpx hnp
        · exact hboundl x hxl hpx
    · rw [heq] at horigin haccb
      have hq2 : q.2 ≤ st := haccb q rfl
      refine ⟨?_, ?_, ?_⟩
      · rcases horigin with h1 | ⟨w', hw', hrest⟩
        · injection h1 with h1
          subst h1
          rcases hqor with hql | hqacc'
          · rw [Prod.mk.injEq] at hql
            exact Or.inr ⟨w, List.mem_cons_self _ _, hp, hql.1.symm, hql.2.symm⟩
          · exact Or.inl hqacc'
        · exact Or.inr ⟨w', List.mem_cons_of_mem _ hw', hrest⟩
      · intro x hx hpx
        rcases List.mem_cons.mp hx with rfl | hxl
        · omega
        · exact hboundl x hxl hpx
      · intro p hpacc
        have := hqacc p hpacc
        omega

theorem latestWriter_eq_none {ops : List Operation} {rtx v : String} {s : Nat} :
    latestWriter ops rtx v s = none ↔ ∀ w ∈ ops, ¬ priorWriter rtx v s w := by
  unfold latestWriter
  rw [Option.map_eq_none', lw_foldl_eq_none]
  simp

theorem latestWriter_eq_some {ops : List Operation} {rtx v : String} {s : Nat} {wtx : String}
    (h : latestWriter ops rtx v s = some wtx) :
    ∃ w ∈ ops, priorWriter rtx v s w ∧ w.transactionId = wtx ∧
      ∀ w' ∈ ops, priorWriter rtx v s w' → w'.step ≤ w.step := by
  unfold latestWriter at h
  rw [Option.map_eq_some'] at h
  obtain ⟨⟨t, st⟩, hfold, ht⟩ := h
  obtain ⟨horigin, hbound, -⟩ := lw_foldl_eq_some ops none t st hfold
  rcases horigin with h1 | ⟨w, hw, hp, htx, hstep⟩
  · cases h1
  · subst ht
    exact ⟨w, hw, hp, htx, fun w' hw' hp' => hstep ▸ hbound w' hw' hp'⟩

theorem sortByStep_sorted (l : List Operation) :
    List.Pairwise (fun a b : Operation => a.step ≤ b.step) (sortByStep l) := by
  induction l with
  | nil => exact List.Pairwise.nil
  | cons a l ih =>
    have hdef : sortByStep (a :: l) = insertByStep a (sortByStep l) := rfl
    rw [hdef]
    clear hdef
    generalize sortByStep l = m at ih
    induction m with
    | nil => exact List.pairwise_singleton _ _
    | cons o rest ihm =>
      unfold insertByStep
      split
      · rename_i hle
        refine List.pairwise_cons.mpr ⟨?_, ih⟩
        intro b hb
        rcases List.mem_cons.mp hb with rfl | hbl
        · exact hle
        · exact le_trans hle ((List.pairwise_cons.mp ih).1 b hbl)
      · rename_i hgt
        push_neg at hgt
        obtain ⟨ho, hrest⟩ := List.pairwise_cons.mp ih
        refine List.pairwise_cons.mpr ⟨?_, ihm hrest⟩
        intro b hb
        rw [mem_insertByStep] at hb
        rcases hb with rfl | hbl
        · omega
        · exact ho b hbl

/-- `find?` on a step-sorted list returns a minimal-step match. -/
theorem find?_min_step {l : List Operation} {p : Operation → Bool} {a : Operation}
    (hsort : List.Pairwise (fun x y : Operation => x.step ≤ y.step) l)
    (h : l.find? p = some a) : ∀ b ∈ l, p b = true → a.step ≤ b.step := by
  induction l with
  | nil => cases h
  | cons x rest ih =>
    intro b hb hpb
    obtain ⟨hx, hrest⟩ := List.pairwise_cons.mp hsort
    rw [List.find?_cons] at h
    rcases hpx : p x with _ | _
    · rw [hpx] at h
      simp only [cond_false] at h
      rcases List.mem_cons.mp hb with rfl | hbl
      · rw [hpb] at hpx; cases hpx
      · exact ih hrest h b hbl hpb
    · rw [hpx] at h
      simp only [cond_true] at h
      injection h with h
      subst h
      rcases List.mem_cons.mp hb with rfl | hbl
      · exact Nat.le_refl _
      · exact hx b hbl

/-- The writer's first Commit/Abort (what the code inspects) witnesses
a terminating operation within a step bound exactly when some
Commit/Abort within that bound exists. -/
theorem find?_term_iff {ops : List Operation} {wtx : String} {ty : OperationType}
    (bnd : Nat → Prop) (hmono : ∀ m n, m ≤ n → bnd n → bnd m) :
    (∃ a, (opsForTx ops wtx).find? (fun o => o.type == ty) = some a ∧ bnd a.step) ↔
    (∃ a ∈ ops, a.transactionId = wtx ∧ a.type = ty ∧ bnd a.step) := by
  constructor
  · rintro ⟨a, hfa, hbnd⟩
    have hty : a.type = ty := by simpa using List.find?_some hfa
    have hmem := mem_opsForTx.mp (List.mem_of_find?_eq_some hfa)
    exact ⟨a, hmem.1, hmem.2, hty, hbnd⟩
  · rintro ⟨x, hx, htx, hty, hbnd⟩
    have hxm : x ∈ opsForTx ops wtx := mem_opsForTx.mpr ⟨hx, htx⟩
    rcases hf : (opsForTx ops wtx).find? (fun o => o.type == ty) with _ | a
    · exfalso
      have := List.find?_eq_none.mp hf x hxm
      simp [hty] at this
    · have hle : a.step ≤ x.step :=
        find?_min_step (by unfold opsForTx; exact sortByStep_sorted _) hf x hxm (by simp [hty])
      exact ⟨a, hf, hmono _ _ hle hbnd⟩

theorem writerTerminationOk_iff {ops : List Operation} {wtx : String} {s : Nat} :
    writerTerminationOk ops wtx s = true ↔
      ((∃ a ∈ ops, a.transactionId = wtx ∧ a.type = .A ∧ a.step < s) ∨
       (∃ c ∈ ops, c.transactionId = wtx ∧ c.type = .C ∧ c.step ≤ s)) := by
  have hA := @find?_term_iff ops wtx OperationType.A
    (fun n => n < s) (fun m n hmn h => lt_of_le_of_lt hmn h)
  have hC := @find?_term_iff ops wtx OperationType.C
    (fun n => n ≤ s) (fun m n hmn h => le_trans hmn h)
  rw [← hA, ← hC]
  unfold writerTerminationOk
  simp only []
  rcases hfA : (opsForTx ops wtx).find? (fun o => o.type == OperationType.A) with _ | a <;>
    rcases hfC : (opsForTx ops wtx).find? (fun o => o.type == OperationType.C) with _ | c <;>
    rw [hfA, hfC]
  · simp
  · simp
  · by_cases hlt : a.step < s
    · simp [hlt]
    · simp [hlt]
  · by_cases hlt : a.step < s
    · simp [hlt]
    · simp [hlt]

/-- One Read's check, under pairwise-distinct steps: the code accepts
the read exactly when every most-recent prior writer aborted or
committed strictly before it (the code's `commit.step ≤ readStep`
acceptance coincides with strict precedence because a commit by
another transaction cannot share the read's step). -/
theorem cascadelessReadOk_iff {ops : List Operation} {readOp : Operation}
    (hinj : ∀ x ∈ ops, ∀ y ∈ ops, x.step = y.step → x = y)
    (hr : readOp ∈ ops) (hty : readOp.type = .R) {v : String} (hv : readOp.var = some v) :
    cascadelessReadOk ops readOp = true ↔
      (∀ w ∈ ops,
        (priorWriter readOp.transactionId v readOp.step w ∧
          ∀ w' ∈ ops, priorWriter readOp.transactionId v readOp.step w' → w'.step ≤ w.step) →
        ((∃ a ∈ ops, a.transactionId = w.transactionId ∧ a.type = .A ∧ a.step < readOp.step) ∨
         (∃ c ∈ ops, c.transactionId = w.transactionId ∧ c.type = .C ∧ c.step < readOp.step))) := by
  unfold cascadelessReadOk
  rw [hv]
  simp only []
  rcases hlw : latestWriter ops readOp.transactionId v readOp.step with _ | wtx
  · simp only []
    constructor
    · intro _ w hw hcand
      exact absurd hcand.1 (latestWriter_eq_none.mp hlw w hw)
    · intro _
      trivial
  · simp only []
    obtain ⟨wm, hwm, hpm, htxm, hmaxm⟩ := latestWriter_eq_some hlw
    constructor
    · intro hterm w hw hcand
      obtain ⟨hpw, hmaxw⟩ := hcand
      have hstepeq : w.step = wm.step :=
        Nat.le_antisymm (hmaxm w hw hpw) (hmaxw wm hwm hpm)
      have hww : w = wm := hinj w hw wm hwm hstepeq
      have htxw : w.transactionId = wtx := by rw [hww]; exact htxm
      rcases writerTerminationOk_iff.mp hterm with ⟨a, ha, hatx, haty, halt⟩ | ⟨c, hc, hctx, hcty, hcle⟩
      · exact Or.inl ⟨a, ha, by rw [htxw]; exact hatx, haty, halt⟩
      · refine Or.inr ⟨c, hc, by rw [htxw]; exact hctx, hcty, ?_⟩
        rcases Nat.lt_or_ge c.step readOp.step with hlt | hge
        · exact hlt
        · exfalso
          have hceq : c.step = readOp.step := Nat.le_antisymm hcle hge
          have : c = readOp := hinj c hc readOp hr hceq
          rw [this, hty] at hcty
          cases hcty
    · intro hspec
      have hdisj := hspec wm hwm ⟨hpm, hmaxm⟩
      apply writerTerminationOk_iff.mpr
      rcases hdisj with ⟨a, ha, hatx, haty, halt⟩ | ⟨c, hc, hctx, hcty, hclt⟩
      · exact Or.inl ⟨a, ha, by rw [hatx]; exact htxm, haty, halt⟩
      · exact Or.inr ⟨c, hc, by rw [hctx]; exact htxm, hcty, Nat.le_of_lt hclt⟩

/-- C4: for operation sequences with pairwise-distinct steps (as the
parser produces), `analyzeCascadeless` returns true iff every Read of
a present, non-empty variable either has no prior writer from another
transaction, or its most recent prior writer aborted strictly before
the read or committed strictly before the read; and on the scenario
`W1(X); R2(X); A1` it returns false, with
`allowsCascadingAborts = true`. -/
theorem claim4_cascadeless_iff (ops : List Operation)
    (hinj : List.Pairwise (fun a b : Operation => a.step ≠ b.step) ops) :
    (analyzeCascadeless ops = true ↔ cascadelessSpec ops) ∧
    (analyzeCascadeless (parseSchedule "W1(X); R2(X); A1") = false ∧
     allowsCascadingAborts (parseSchedule "W1(X); R2(X); A1") = true) := by
  have hsym : Symmetric (fun a b : Operation => a.step ≠ b.step) := fun _ _ h => Ne.symm h
  have hinj' : ∀ x ∈ ops, ∀ y ∈ ops, x.step = y.step → x = y := by
    intro x hx y hy hxy
    by_contra hne
    exact List.Pairwise.forall hsym hinj hx hy hne hxy
  refine ⟨?_, by decide, by decide⟩
  unfold analyzeCascadeless cascadelessSpec
  rw [List.all_eq_true]
  constructor
  · intro h readOp hr hty hvn hvne w hw hcand
    rcases hvv : readOp.var with _ | v
    · exact absurd hvv hvn
    · have hvne' : v ≠ "" := fun he => hvne (by rw [hvv, he])
      have hguard := h readOp hr
      rw [if_pos (by simp [hty, hvv, hvne'])] at hguard
      obtain ⟨hW, hvar, htx, hstep, hmax⟩ := hcand
      apply (cascadelessReadOk_iff hinj' hr hty hvv).mp hguard w hw
      refine ⟨⟨hstep, hW, by rw [← hvv]; exact hvar, htx⟩, ?_⟩
      intro w' hw' hpw'
      obtain ⟨p1, p2, p3, p4⟩ := hpw'
      exact hmax w' hw' p2 (by rw [hvv]; exact p3) p4 p1
  · intro h x hx
    split
    · rename_i hguard
      simp only [Bool.and_eq_true, beq_iff_eq] at hguard
      obtain ⟨htyx, hvarx⟩ := hguard
      rcases hvv : x.var with _ | v
      · rw [hvv] at hvarx; simp at hvarx
      · have hvne' : v ≠ "" := by
          rw [hvv] at hvarx
          simpa using hvarx
        apply (cascadelessReadOk_iff hinj' hx htyx hvv).mpr
        intro w hw hcand
        obtain ⟨⟨c1, c2, c3, c4⟩, hmaxw⟩ := hcand
        apply h x hx htyx (by rw [hvv]; simp) (by rw [hvv]; simp [hvne']) w hw
        refine ⟨c2, by rw [hvv]; exact c3, c4, c1, ?_⟩
        intro w' hw' q1 q2 q3 q4
        exact hmaxw w' hw' ⟨q4, q1, by rw [hvv] at q2; exact q2, q3⟩
    · rfl

/-- Witness for C4 at the parsed schedule `W1(X); C1; R2(X); C2` (a
cascadeless schedule with distinct steps): the hypothesis holds and
the equivalence applies. -/
theorem claim4_cascadeless_iff_witness :
    List.Pairwise (fun a b : Operation => a.step ≠ b.step)
      (parseSchedule "W1(X); C1; R2(X); C2") ∧
    (analyzeCascadeless (parseSchedule "W1(X); C1; R2(X); C2") = true ↔
      cascadelessSpec (parseSchedule "W1(X); C1; R2(X); C2")) :=
  ⟨by decide,
    (claim4_cascadeless_iff (parseSchedule "W1(X); C1; R2(X); C2") (by decide)).1⟩

end TFA
